import Mathlib

/-!
# Shallow embedding of the `treap` crate (`src/map.rs`, `src/node.rs`)

The Rust sources implement a treap-backed ordered map:

* `Node<K, V>` (`src/node.rs`): a binary-tree node owning optional left/right
  subtrees, holding a key, a value and a `u64` priority, with recursive
  `get`, recursive `insert` (repairing the max-heap property on priorities by
  one rotation per stack frame on the way back up), the rotation primitives
  `rotate_right` / `rotate_left`, and the helper `is_heap_property_violated`.
* `TreapMap<K, V>` (`src/map.rs`): an optional root plus a `len` counter;
  `insert` draws a random priority and delegates to the root node,
  incrementing `len` exactly when the returned previous value is absent.

Embedding choices:

* Rust's `Option<Box<Node<K, V>>>` becomes `ONode K V`, a copy of `Option`
  specialised to `Node K V` and declared mutually with it (box indirection
  has no observable content; the specialised copy gives the Lean equation
  compiler plain mutual structural recursion instead of nested recursion).
* Rust's `K : Ord` comparison is an explicit comparator
  `c : K → K → Ordering`; lawfulness (`Batteries.OrientedCmp`,
  `Batteries.TransCmp`) is assumed only where a proof needs it, mirroring the
  spec's "valid total order" caller obligation.  Keys that compare `.eq` need
  not be identical values, which faithfully models Rust key types whose `Ord`
  is coarser than representation identity.
* The `u64` priority becomes `Nat`: the code only compares priorities and
  takes maxima, so no wrap-around can occur.
* Mutation (`&mut self`) becomes state passing: `insert` returns the updated
  node together with the `Option<V>` the Rust method returns.
* The random priority drawn by `TreapMap::insert` becomes an explicit
  argument, quantified over in the theorems ("any priorities drawn").
-/

universe u v

mutual
/-- `Node<K, V>` from `src/node.rs`: key, value, optional left and right
subtrees, priority. -/
inductive Node (K : Type u) (V : Type v) : Type (max u v) where
  | mk (key : K) (val : V) (left : ONode K V) (right : ONode K V) (priority : Nat)

/-- `Option<Box<Node<K, V>>>`: an optional subtree. -/
inductive ONode (K : Type u) (V : Type v) : Type (max u v) where
  | none
  | some (n : Node K V)
end

variable {K : Type u} {V : Type v}

namespace Node

/-- Field accessor for `key`. -/
def key : Node K V → K
  | mk k _ _ _ _ => k

/-- Field accessor for `val`. -/
def val : Node K V → V
  | mk _ v _ _ _ => v

/-- Field accessor for `left`. -/
def left : Node K V → ONode K V
  | mk _ _ l _ _ => l

/-- Field accessor for `right`. -/
def right : Node K V → ONode K V
  | mk _ _ _ r _ => r

/-- Field accessor for `priority`. -/
def priority : Node K V → Nat
  | mk _ _ _ _ p => p

@[simp] theorem key_mk (k : K) (v : V) (l r : ONode K V) (p : Nat) :
    (mk k v l r p).key = k := rfl

@[simp] theorem val_mk (k : K) (v : V) (l r : ONode K V) (p : Nat) :
    (mk k v l r p).val = v := rfl

@[simp] theorem left_mk (k : K) (v : V) (l r : ONode K V) (p : Nat) :
    (mk k v l r p).left = l := rfl

@[simp] theorem right_mk (k : K) (v : V) (l r : ONode K V) (p : Nat) :
    (mk k v l r p).right = r := rfl

@[simp] theorem priority_mk (k : K) (v : V) (l r : ONode K V) (p : Nat) :
    (mk k v l r p).priority = p := rfl

/-- `Node::new(key, val, priority)`: a leaf node with no children. -/
def new (key : K) (val : V) (priority : Nat) : Node K V :=
  mk key val .none .none priority

end Node

mutual
/-- `Node::get(&self, key)`: pure recursive descent by comparison. -/
def Node.get (c : K → K → Ordering) (q : K) : Node K V → Option V
  | .mk k v l r _ =>
    match c q k with
    | .eq => some v
    | .lt => ONode.get c q l
    | .gt => ONode.get c q r

/-- Rust's `subtree.as_ref().and_then(|n| n.get(key))` on an optional
subtree. -/
def ONode.get (c : K → K → Ordering) (q : K) : ONode K V → Option V
  | .some n => Node.get c q n
  | .none => Option.none
end

namespace Node

/-- `Node::is_heap_property_violated(&self, subtree)`: true when the subtree
root is present and has strictly greater priority than `self`. -/
def is_heap_property_violated (n : Node K V) : ONode K V → Bool
  | .some child => n.priority < child.priority
  | .none => false

/-- `Node::rotate_right(&mut self)`: `self.left.take()` followed by the two
swaps and the replace.  When the left child is absent the `take` put back a
`None` that was already there, so the node is unchanged. -/
def rotate_right : Node K V → Node K V
  | mk k v l r p =>
    match l with
    | .none => mk k v .none r p
    | .some (mk xk xv a b xp) => mk xk xv a (.some (mk k v b r p)) xp

/-- `Node::rotate_left(&mut self)`: mirror image of `rotate_right`. -/
def rotate_left : Node K V → Node K V
  | mk k v l r p =>
    match r with
    | .none => mk k v l .none p
    | .some (mk xk xv b c xp) => mk xk xv (.some (mk k v l b p)) c xp

/-- `Node::insert(&mut self, key, val, priority)`: returns the updated node
(the `&mut self` after the call) and the returned `Option<V>`.
In the `Equal` arm the stored key is kept and the priority only ever raised;
in the `Less`/`Greater` arms the child insertion happens first, then the
heap-violation check and at most one rotation. -/
def insert (c : K → K → Ordering) (key : K) (val : V) (priority : Nat) :
    Node K V → Node K V × Option V
  | mk k v l r p =>
    match c key k with
    | .eq =>
      (mk k val l r (if p < priority then priority else p), some v)
    | .lt =>
      let step : ONode K V × Option V :=
        match l with
        | .some lc =>
          let res := lc.insert c key val priority
          (.some res.1, res.2)
        | .none => (.some (Node.new key val priority), Option.none)
      let n' : Node K V := mk k v step.1 r p
      (if n'.is_heap_property_violated n'.left then n'.rotate_right else n',
        step.2)
    | .gt =>
      let step : ONode K V × Option V :=
        match r with
        | .some rc =>
          let res := rc.insert c key val priority
          (.some res.1, res.2)
        | .none => (.some (Node.new key val priority), Option.none)
      let n' : Node K V := mk k v l step.1 p
      (if n'.is_heap_property_violated n'.right then n'.rotate_left else n',
        step.2)

end Node

/-- `TreapMap<K, V>` from `src/map.rs`: optional root and element count. -/
structure TreapMap (K : Type u) (V : Type v) : Type (max u v) where
  root : ONode K V
  len : Nat

namespace TreapMap

/-- `TreapMap::new()`: empty map. -/
def new : TreapMap K V := ⟨.none, 0⟩

/-- `impl Default for TreapMap`: `Self::new()`. -/
def default : TreapMap K V := new

/-- `TreapMap::insert(&mut self, key, val)`.  The randomly drawn priority is
the explicit `priority` argument; the returned pair is the updated map and
the Rust return value. -/
def insert (c : K → K → Ordering) (m : TreapMap K V) (key : K) (val : V)
    (priority : Nat) : TreapMap K V × Option V :=
  match m.root with
  | .some root =>
    let res := root.insert c key val priority
    (⟨.some res.1, if res.2.isNone then m.len + 1 else m.len⟩, res.2)
  | .none =>
    (⟨.some (Node.new key val priority), m.len + 1⟩, Option.none)

/-- `TreapMap::get(&self, key)`: `self.root.as_ref().and_then(|n| n.get(key))`. -/
def get (c : K → K → Ordering) (m : TreapMap K V) (q : K) : Option V :=
  m.root.get c q

end TreapMap

/-! ## Observation functions

These are not part of the Rust source; they are the measuring instruments the
specification's invariants talk about (node count, tree height, BST and heap
invariants, the stored entry for a key, the in-order key sequence).  Each
comes in a `Node` and an `ONode` form, declared mutually. -/

mutual
/-- Number of nodes in the subtree rooted here. -/
def Node.size : Node K V → Nat
  | .mk _ _ l r _ => 1 + l.size + r.size

/-- Node count of an optional subtree. -/
def ONode.size : ONode K V → Nat
  | .some n => n.size
  | .none => 0
end

mutual
/-- Height (number of nodes on a longest root-to-leaf path). -/
def Node.height : Node K V → Nat
  | .mk _ _ l r _ => 1 + max l.height r.height

/-- Height of an optional subtree. -/
def ONode.height : ONode K V → Nat
  | .some n => n.height
  | .none => 0
end

mutual
/-- Every key in the subtree satisfies `f`. -/
def Node.allKeys (f : K → Bool) : Node K V → Bool
  | .mk k _ l r _ => f k && l.allKeys f && r.allKeys f

/-- Every key in an optional subtree satisfies `f`. -/
def ONode.allKeys (f : K → Bool) : ONode K V → Bool
  | .some n => n.allKeys f
  | .none => true
end

mutual
/-- The BST invariant under comparator `c`: every key in the left subtree
compares `.lt` against the node key, every key in the right subtree `.gt`,
recursively. -/
def Node.isBST (c : K → K → Ordering) : Node K V → Bool
  | .mk k _ l r _ =>
    l.allKeys (fun x => c x k = Ordering.lt) && r.allKeys (fun x => c x k = Ordering.gt)
      && l.isBST c && r.isBST c

/-- The BST invariant for an optional subtree. -/
def ONode.isBST (c : K → K → Ordering) : ONode K V → Bool
  | .some n => n.isBST c
  | .none => true
end

mutual
/-- The max-heap invariant: each present child's priority is at most the
parent's, recursively. -/
def Node.isHeap : Node K V → Bool
  | .mk _ _ l r p => l.prioLe p && r.prioLe p && l.isHeap && r.isHeap

/-- The root priority of an optional subtree is at most `q` (`true` when
absent). -/
def ONode.prioLe (q : Nat) : ONode K V → Bool
  | .some n => n.priority ≤ q
  | .none => true

/-- The max-heap invariant for an optional subtree. -/
def ONode.isHeap : ONode K V → Bool
  | .some n => n.isHeap
  | .none => true
end

mutual
/-- Every priority in the subtree is at most `q`. -/
def Node.allPrioLe (q : Nat) : Node K V → Bool
  | .mk _ _ l r p => decide (p ≤ q) && l.allPrioLe q && r.allPrioLe q

/-- Every priority in an optional subtree is at most `q`. -/
def ONode.allPrioLe (q : Nat) : ONode K V → Bool
  | .some n => n.allPrioLe q
  | .none => true
end

mutual
/-- The stored entry (stored key, value, priority) reached by the same
descent as `get`. -/
def Node.entryFor (c : K → K → Ordering) (q : K) : Node K V → Option (K × V × Nat)
  | .mk k v l r p =>
    match c q k with
    | .eq => some (k, v, p)
    | .lt => l.entryFor c q
    | .gt => r.entryFor c q

/-- The stored entry in an optional subtree. -/
def ONode.entryFor (c : K → K → Ordering) (q : K) : ONode K V → Option (K × V × Nat)
  | .some n => n.entryFor c q
  | .none => Option.none
end

mutual
/-- In-order sequence of the stored key objects. -/
def Node.keysList : Node K V → List K
  | .mk k _ l r _ => l.keysList ++ k :: r.keysList

/-- In-order key sequence of an optional subtree. -/
def ONode.keysList : ONode K V → List K
  | .some n => n.keysList
  | .none => []
end

/-- Fuel-indexed variant of `Node.get`: `none` means the recursion-depth
budget ran out before the descent finished. -/
def Node.getFuel (c : K → K → Ordering) (q : K) : Nat → Node K V → Option (Option V)
  | 0, _ => Option.none
  | fuel + 1, .mk k v l r _ =>
    match c q k with
    | .eq => some (some v)
    | .lt =>
      match l with
      | .some n => Node.getFuel c q fuel n
      | .none => some Option.none
    | .gt =>
      match r with
      | .some n => Node.getFuel c q fuel n
      | .none => some Option.none

/-- Fuel-indexed variant of `Node.insert`, with the same stack frames as
`insert`; `none` means the recursion-depth budget ran out. -/
def Node.insertFuel (c : K → K → Ordering) (key : K) (val : V) (priority : Nat) :
    Nat → Node K V → Option (Node K V × Option V)
  | 0, _ => Option.none
  | fuel + 1, .mk k v l r p =>
    match c key k with
    | .eq => some (mk k val l r (if p < priority then priority else p), some v)
    | .lt =>
      match l with
      | .some lc =>
        match Node.insertFuel c key val priority fuel lc with
        | Option.none => Option.none
        | Option.some res =>
          let n' : Node K V := mk k v (.some res.1) r p
          some (if n'.is_heap_property_violated n'.left then n'.rotate_right else n',
            res.2)
      | .none =>
        let n' : Node K V := mk k v (.some (Node.new key val priority)) r p
        some (if n'.is_heap_property_violated n'.left then n'.rotate_right else n',
          Option.none)
    | .gt =>
      match r with
      | .some rc =>
        match Node.insertFuel c key val priority fuel rc with
        | Option.none => Option.none
        | Option.some res =>
          let n' : Node K V := mk k v l (.some res.1) p
          some (if n'.is_heap_property_violated n'.right then n'.rotate_left else n',
            res.2)
      | .none =>
        let n' : Node K V := mk k v l (.some (Node.new key val priority)) p
        some (if n'.is_heap_property_violated n'.right then n'.rotate_left else n',
          Option.none)

namespace TreapMap

/-- Run a list of `(key, value, priority)` insertions left to right. -/
def applyOps (c : K → K → Ordering) (m : TreapMap K V) :
    List (K × V × Nat) → TreapMap K V
  | [] => m
  | (k, v, p) :: rest => applyOps c (m.insert c k v p).1 rest

/-- The value most recently inserted for (the `c`-equivalence class of) `q`
in an operation list. -/
def mostRecent (c : K → K → Ordering) (ops : List (K × V × Nat)) (q : K) :
    Option V :=
  (ops.reverse.find? fun e => c q e.1 = Ordering.eq).map fun e => e.2.1

/-- One step of key deduplication: prepend the key unless an equivalent one
was already seen. -/
def dedupStep (c : K → K → Ordering) (acc : List K) (e : K × V × Nat) : List K :=
  if acc.any fun x => c e.1 x = Ordering.eq then acc else e.1 :: acc

/-- The number of distinct keys (up to `c`-equivalence) in an operation
list. -/
def distinctKeys (c : K → K → Ordering) (ops : List (K × V × Nat)) : Nat :=
  (ops.foldl (dedupStep c) []).length

end TreapMap

/-! ## Equation and unfolding lemmas -/

namespace ONode

@[simp] theorem get_some (c : K → K → Ordering) (q : K) (n : Node K V) :
    (ONode.some n).get c q = n.get c q := rfl

@[simp] theorem get_none (c : K → K → Ordering) (q : K) :
    (ONode.none : ONode K V).get c q = Option.none := rfl

@[simp] theorem size_some (n : Node K V) : (ONode.some n).size = n.size := rfl

@[simp] theorem size_none : (ONode.none : ONode K V).size = 0 := rfl

@[simp] theorem height_some (n : Node K V) : (ONode.some n).height = n.height := rfl

@[simp] theorem height_none : (ONode.none : ONode K V).height = 0 := rfl

@[simp] theorem allKeys_some (f : K → Bool) (n : Node K V) :
    (ONode.some n).allKeys f = n.allKeys f := rfl

@[simp] theorem allKeys_none (f : K → Bool) :
    (ONode.none : ONode K V).allKeys f = true := rfl

@[simp] theorem isBST_some (c : K → K → Ordering) (n : Node K V) :
    (ONode.some n).isBST c = n.isBST c := rfl

@[simp] theorem isBST_none (c : K → K → Ordering) :
    (ONode.none : ONode K V).isBST c = true := rfl

@[simp] theorem prioLe_some (q : Nat) (n : Node K V) :
    (ONode.some n).prioLe q = decide (n.priority ≤ q) := rfl

@[simp] theorem prioLe_none (q : Nat) :
    (ONode.none : ONode K V).prioLe q = true := rfl

@[simp] theorem isHeap_some (n : Node K V) :
    (ONode.some n).isHeap = n.isHeap := rfl

@[simp] theorem isHeap_none : (ONode.none : ONode K V).isHeap = true := rfl

@[simp] theorem allPrioLe_some (q : Nat) (n : Node K V) :
    (ONode.some n).allPrioLe q = n.allPrioLe q := rfl

@[simp] theorem allPrioLe_none (q : Nat) :
    (ONode.none : ONode K V).allPrioLe q = true := rfl

@[simp] theorem entryFor_some (c : K → K → Ordering) (q : K) (n : Node K V) :
    (ONode.some n).entryFor c q = n.entryFor c q := rfl

@[simp] theorem entryFor_none (c : K → K → Ordering) (q : K) :
    (ONode.none : ONode K V).entryFor c q = Option.none := rfl

@[simp] theorem keysList_some (n : Node K V) :
    (ONode.some n).keysList = n.keysList := rfl

@[simp] theorem keysList_none : (ONode.none : ONode K V).keysList = [] := rfl

end ONode

namespace Node

theorem get_mk (c : K → K → Ordering) (q k : K) (v : V) (l r : ONode K V) (p : Nat) :
    (mk k v l r p).get c q =
      match c q k with
      | .eq => some v
      | .lt => l.get c q
      | .gt => r.get c q := rfl

theorem entryFor_mk (c : K → K → Ordering) (q k : K) (v : V) (l r : ONode K V) (p : Nat) :
    (mk k v l r p).entryFor c q =
      match c q k with
      | .eq => some (k, v, p)
      | .lt => l.entryFor c q
      | .gt => r.entryFor c q := rfl

@[simp] theorem size_mk (k : K) (v : V) (l r : ONode K V) (p : Nat) :
    (mk k v l r p).size = 1 + l.size + r.size := rfl

@[simp] theorem height_mk (k : K) (v : V) (l r : ONode K V) (p : Nat) :
    (mk k v l r p).height = 1 + max l.height r.height := rfl

@[simp] theorem allKeys_mk (f : K → Bool) (k : K) (v : V) (l r : ONode K V) (p : Nat) :
    (mk k v l r p).allKeys f = (f k && l.allKeys f && r.allKeys f) := rfl

@[simp] theorem isBST_mk (c : K → K → Ordering) (k : K) (v : V) (l r : ONode K V) (p : Nat) :
    (mk k v l r p).isBST c =
      (l.allKeys (fun x => c x k = Ordering.lt) && r.allKeys (fun x => c x k = Ordering.gt)
        && l.isBST c && r.isBST c) := rfl

@[simp] theorem isHeap_mk (k : K) (v : V) (l r : ONode K V) (p : Nat) :
    (mk k v l r p).isHeap = (l.prioLe p && r.prioLe p && l.isHeap && r.isHeap) := rfl

@[simp] theorem allPrioLe_mk (q : Nat) (k : K) (v : V) (l r : ONode K V) (p : Nat) :
    (mk k v l r p).allPrioLe q = (decide (p ≤ q) && l.allPrioLe q && r.allPrioLe q) := rfl

@[simp] theorem keysList_mk (k : K) (v : V) (l r : ONode K V) (p : Nat) :
    (mk k v l r p).keysList = l.keysList ++ k :: r.keysList := rfl

@[simp] theorem ihpv_some (n child : Node K V) :
    n.is_heap_property_violated (.some child) = decide (n.priority < child.priority) := rfl

@[simp] theorem ihpv_none (n : Node K V) :
    n.is_heap_property_violated (.none) = false := rfl

@[simp] theorem rotate_right_none (k : K) (v : V) (r : ONode K V) (p : Nat) :
    (mk k v .none r p).rotate_right = mk k v .none r p := rfl

@[simp] theorem rotate_right_some (k xk : K) (v xv : V) (a b r : ONode K V) (p xp : Nat) :
    (mk k v (.some (mk xk xv a b xp)) r p).rotate_right =
      mk xk xv a (.some (mk k v b r p)) xp := rfl

@[simp] theorem rotate_left_none (k : K) (v : V) (l : ONode K V) (p : Nat) :
    (mk k v l .none p).rotate_left = mk k v l .none p := rfl

@[simp] theorem rotate_left_some (k xk : K) (v xv : V) (l b c : ONode K V) (p xp : Nat) :
    (mk k v l (.some (mk xk xv b c xp)) p).rotate_left =
      mk xk xv (.some (mk k v l b p)) c xp := rfl

theorem insert_mk_eq (c : K → K → Ordering) (key k : K) (val v : V) (pr p : Nat)
    (l r : ONode K V) (h : c key k = Ordering.eq) :
    (mk k v l r p).insert c key val pr =
      (mk k val l r (if p < pr then pr else p), some v) := by
  cases l <;> cases r <;> simp [insert, h]

theorem insert_mk_lt_some (c : K → K → Ordering) (key k : K) (val v : V) (pr p : Nat)
    (lc : Node K V) (r : ONode K V) (h : c key k = Ordering.lt) :
    (mk k v (.some lc) r p).insert c key val pr =
      (if p < ((lc.insert c key val pr).1).priority
        then (mk k v (.some (lc.insert c key val pr).1) r p).rotate_right
        else mk k v (.some (lc.insert c key val pr).1) r p,
       (lc.insert c key val pr).2) := by
  cases r <;> simp [insert, h]

theorem insert_mk_lt_none (c : K → K → Ordering) (key k : K) (val v : V) (pr p : Nat)
    (r : ONode K V) (h : c key k = Ordering.lt) :
    (mk k v .none r p).insert c key val pr =
      (if p < pr
        then (mk k v (.some (Node.new key val pr)) r p).rotate_right
        else mk k v (.some (Node.new key val pr)) r p,
       Option.none) := by
  cases r <;> simp [insert, h, Node.new]

theorem insert_mk_gt_some (c : K → K → Ordering) (key k : K) (val v : V) (pr p : Nat)
    (l : ONode K V) (rc : Node K V) (h : c key k = Ordering.gt) :
    (mk k v l (.some rc) p).insert c key val pr =
      (if p < ((rc.insert c key val pr).1).priority
        then (mk k v l (.some (rc.insert c key val pr).1) p).rotate_left
        else mk k v l (.some (rc.insert c key val pr).1) p,
       (rc.insert c key val pr).2) := by
  cases l <;> simp [insert, h]

theorem insert_mk_gt_none (c : K → K → Ordering) (key k : K) (val v : V) (pr p : Nat)
    (l : ONode K V) (h : c key k = Ordering.gt) :
    (mk k v l .none p).insert c key val pr =
      (if p < pr
        then (mk k v l (.some (Node.new key val pr)) p).rotate_left
        else mk k v l (.some (Node.new key val pr)) p,
       Option.none) := by
  cases l <;> simp [insert, h, Node.new]

end Node

/-! ## Induction principle and structural lemmas -/

/-- Structural induction over `Node`, with hypotheses for the optional
children. -/
theorem Node.ind {motive : Node K V → Prop}
    (h : ∀ (k : K) (v : V) (l r : ONode K V) (p : Nat),
        (∀ n, l = .some n → motive n) → (∀ n, r = .some n → motive n) →
        motive (Node.mk k v l r p)) :
    ∀ n, motive n
  | Node.mk k v l r p =>
    h k v l r p
      (fun n hn => by
        subst hn
        exact Node.ind h n)
      (fun n hn => by
        subst hn
        exact Node.ind h n)

namespace Node

theorem allKeys_key {f : K → Bool} {n : Node K V} (h : n.allKeys f = true) :
    f n.key = true := by
  cases n with
  | mk k v l r p => simp [Bool.and_eq_true] at h; simpa using h.1.1

theorem allKeys_imp {f g : K → Bool} (hfg : ∀ x, f x = true → g x = true) :
    ∀ {n : Node K V}, n.allKeys f = true → n.allKeys g = true := by
  intro n
  induction n using Node.ind with
  | h k v l r p ihl ihr =>
    intro h
    simp only [allKeys_mk, Bool.and_eq_true] at h ⊢
    obtain ⟨⟨h1, h2⟩, h3⟩ := h
    refine ⟨⟨hfg _ h1, ?_⟩, ?_⟩
    · cases l with
      | none => rfl
      | some lc => simpa using ihl lc rfl (by simpa using h2)
    · cases r with
      | none => rfl
      | some rc => simpa using ihr rc rfl (by simpa using h3)

theorem allPrioLe_mono {a b : Nat} (hab : a ≤ b) :
    ∀ {n : Node K V}, n.allPrioLe a = true → n.allPrioLe b = true := by
  intro n
  induction n using Node.ind with
  | h k v l r p ihl ihr =>
    intro h
    simp only [allPrioLe_mk, Bool.and_eq_true, decide_eq_true_eq] at h ⊢
    obtain ⟨⟨h1, h2⟩, h3⟩ := h
    refine ⟨⟨le_trans h1 hab, ?_⟩, ?_⟩
    · cases l with
      | none => rfl
      | some lc => simpa using ihl lc rfl (by simpa using h2)
    · cases r with
      | none => rfl
      | some rc => simpa using ihr rc rfl (by simpa using h3)

theorem allPrioLe_priority {q : Nat} {n : Node K V} (h : n.allPrioLe q = true) :
    n.priority ≤ q := by
  cases n with
  | mk k v l r p => simp [Bool.and_eq_true] at h; simpa using h.1.1

/-- In a heap, every priority is bounded by the root priority. -/
theorem isHeap_allPrioLe : ∀ {n : Node K V}, n.isHeap = true →
    n.allPrioLe n.priority = true := by
  intro n
  induction n using Node.ind with
  | h k v l r p ihl ihr =>
    intro hh
    simp only [isHeap_mk, Bool.and_eq_true] at hh
    obtain ⟨⟨⟨hlp, hrp⟩, hlh⟩, hrh⟩ := hh
    simp only [allPrioLe_mk, priority_mk, Bool.and_eq_true, decide_eq_true_eq]
    refine ⟨⟨le_refl p, ?_⟩, ?_⟩
    · cases l with
      | none => rfl
      | some lc =>
        simp only [ONode.prioLe_some, decide_eq_true_eq] at hlp
        exact allPrioLe_mono hlp (ihl lc rfl (by simpa using hlh))
    · cases r with
      | none => rfl
      | some rc =>
        simp only [ONode.prioLe_some, decide_eq_true_eq] at hrp
        exact allPrioLe_mono hrp (ihr rc rfl (by simpa using hrh))

theorem keysList_rotate_right (n : Node K V) :
    n.rotate_right.keysList = n.keysList := by
  cases n with
  | mk k v l r p =>
    cases l with
    | none => rfl
    | some x => cases x with | mk xk xv a b xp => simp

theorem keysList_rotate_left (n : Node K V) :
    n.rotate_left.keysList = n.keysList := by
  cases n with
  | mk k v l r p =>
    cases r with
    | none => rfl
    | some x => cases x with | mk xk xv b c xp => simp

theorem size_rotate_right (n : Node K V) :
    n.rotate_right.size = n.size := by
  cases n with
  | mk k v l r p =>
    cases l with
    | none => rfl
    | some x => cases x with | mk xk xv a b xp => simp; omega

theorem size_rotate_left (n : Node K V) :
    n.rotate_left.size = n.size := by
  cases n with
  | mk k v l r p =>
    cases r with
    | none => rfl
    | some x => cases x with | mk xk xv b c xp => simp; omega

theorem allKeys_rotate_right (f : K → Bool) (n : Node K V) :
    (n.rotate_right.allKeys f = true) ↔ (n.allKeys f = true) := by
  cases n with
  | mk k v l r p =>
    cases l with
    | none => rfl
    | some x =>
      cases x with
      | mk xk xv a b xp => simp [Bool.and_eq_true]; tauto

theorem allKeys_rotate_left (f : K → Bool) (n : Node K V) :
    (n.rotate_left.allKeys f = true) ↔ (n.allKeys f = true) := by
  cases n with
  | mk k v l r p =>
    cases r with
    | none => rfl
    | some x =>
      cases x with
      | mk xk xv b c xp => simp [Bool.and_eq_true]; tauto

end Node

namespace ONode

theorem allKeys_weaken {f g : K → Bool} (hfg : ∀ x, f x = true → g x = true) :
    ∀ {o : ONode K V}, o.allKeys f = true → o.allKeys g = true := by
  intro o h
  cases o with
  | none => rfl
  | some n => simpa using Node.allKeys_imp hfg (by simpa using h)

end ONode

namespace Node

/-- `get` returns the value component of the entry reached by the descent. -/
theorem get_eq_entryFor (c : K → K → Ordering) (q : K) :
    ∀ n : Node K V, n.get c q = (n.entryFor c q).map fun e => e.2.1 := by
  intro n
  induction n using Node.ind with
  | h k v l r p ihl ihr =>
    rw [get_mk, entryFor_mk]
    cases hc : c q k
    · cases l with
      | none => simp
      | some lc => simpa using ihl lc rfl
    · simp
    · cases r with
      | none => simp
      | some rc => simpa using ihr rc rfl

end Node

theorem ONode.get_eq_entryFor_opt (c : K → K → Ordering) (q : K) (o : ONode K V) :
    o.get c q = (o.entryFor c q).map fun e => e.2.1 := by
  cases o with
  | none => rfl
  | some n => simpa using Node.get_eq_entryFor c q n

namespace Node

open Batteries.OrientedCmp Batteries.TransCmp in
/-- A right rotation whose pivot key compares below the root key reroutes
every `entryFor` descent to the same entry. -/
theorem entryFor_rotate_right (c : K → K → Ordering) [Batteries.TransCmp c] (q : K)
    {k : K} {v : V} {x : Node K V} {r : ONode K V} {p : Nat}
    (hk : c x.key k = Ordering.lt) :
    ((Node.mk k v (.some x) r p).rotate_right).entryFor c q =
      (Node.mk k v (.some x) r p).entryFor c q := by
  cases x with
  | mk xk xv a b xp =>
    simp only [key_mk] at hk
    rw [rotate_right_some, entryFor_mk, entryFor_mk]
    cases h1 : c q xk <;> cases h2 : c q k <;>
        simp only [ONode.entryFor_some, entryFor_mk, h1, h2]
    -- (lt, eq): q < xk yet q = k while xk < k
    · have e1 : c xk q = Ordering.gt := cmp_eq_gt.2 h1
      have e2 : c xk q = c xk k := cmp_congr_right h2
      rw [e2, hk] at e1
      exact absurd e1 (by decide)
    -- (lt, gt): q < xk < k yet q > k
    · have e1 : c q k = Ordering.lt := lt_trans h1 hk
      rw [h2] at e1
      exact absurd e1 (by decide)
    -- (eq, eq): q = xk and q = k while xk < k
    · have e1 : c q k = c xk k := cmp_congr_left h1
      rw [h2, hk] at e1
      exact absurd e1 (by decide)
    -- (eq, gt): q = xk < k yet q > k
    · have e1 : c q k = c xk k := cmp_congr_left h1
      rw [h2, hk] at e1
      exact absurd e1 (by decide)

open Batteries.OrientedCmp Batteries.TransCmp in
/-- A left rotation whose pivot key compares above the root key reroutes
every `entryFor` descent to the same entry. -/
theorem entryFor_rotate_left (c : K → K → Ordering) [Batteries.TransCmp c] (q : K)
    {k : K} {v : V} {x : Node K V} {l : ONode K V} {p : Nat}
    (hk : c x.key k = Ordering.gt) :
    ((Node.mk k v l (.some x) p).rotate_left).entryFor c q =
      (Node.mk k v l (.some x) p).entryFor c q := by
  cases x with
  | mk xk xv b c2 xp =>
    simp only [key_mk] at hk
    rw [rotate_left_some, entryFor_mk, entryFor_mk]
    cases h1 : c q xk <;> cases h2 : c q k <;>
        simp only [ONode.entryFor_some, entryFor_mk, h1, h2]
    -- (eq, lt): q = xk > k yet q < k
    · have e1 : c q k = c xk k := cmp_congr_left h1
      rw [h2, hk] at e1
      exact absurd e1 (by decide)
    -- (eq, eq): q = xk and q = k while xk > k
    · have e1 : c q k = c xk k := cmp_congr_left h1
      rw [h2, hk] at e1
      exact absurd e1 (by decide)
    -- (gt, lt): k < xk < q yet q < k
    · have e1 : c k q = Ordering.lt :=
        lt_trans (cmp_eq_gt.1 hk) (cmp_eq_gt.1 h1)
      have e2 : c k q = Ordering.gt := cmp_eq_gt.2 h2
      rw [e1] at e2
      exact absurd e2 (by decide)
    -- (gt, eq): q = k < xk yet q > xk
    · have e1 : c xk q = c xk k := cmp_congr_right h2
      have e2 : c xk q = Ordering.lt := cmp_eq_gt.1 h1
      rw [e1, hk] at e2
      exact absurd e2 (by decide)

open Batteries.OrientedCmp Batteries.TransCmp in
/-- `rotate_right` preserves the BST invariant. -/
theorem isBST_rotate_right (c : K → K → Ordering) [Batteries.TransCmp c]
    {n : Node K V} (h : n.isBST c = true) : n.rotate_right.isBST c = true := by
  cases n with
  | mk k v l r p =>
    cases l with
    | none => simpa using h
    | some x =>
      cases x with
      | mk xk xv a b xp =>
        rw [rotate_right_some]
        simp only [isBST_mk, ONode.allKeys_some, ONode.isBST_some, allKeys_mk,
          Bool.and_eq_true, decide_eq_true_eq] at h ⊢
        obtain ⟨⟨⟨⟨⟨hxk, hak⟩, hbk⟩, hrk⟩, ⟨⟨⟨hax, hbx⟩, habst⟩, hbbst⟩⟩, hr⟩ := h
        have hk_gt_xk : c k xk = Ordering.gt := cmp_eq_gt.2 hxk
        refine ⟨⟨⟨hax, ⟨⟨hk_gt_xk, hbx⟩, ?_⟩⟩, habst⟩, ⟨⟨⟨hbk, hrk⟩, hbbst⟩, hr⟩⟩
        exact ONode.allKeys_weaken (fun y hy => by
          simp only [decide_eq_true_eq] at hy ⊢
          exact Batteries.TransCmp.gt_trans hy hk_gt_xk) hrk

open Batteries.OrientedCmp Batteries.TransCmp in
/-- `rotate_left` preserves the BST invariant. -/
theorem isBST_rotate_left (c : K → K → Ordering) [Batteries.TransCmp c]
    {n : Node K V} (h : n.isBST c = true) : n.rotate_left.isBST c = true := by
  cases n with
  | mk k v l r p =>
    cases r with
    | none => simpa using h
    | some x =>
      cases x with
      | mk xk xv b c2 xp =>
        rw [rotate_left_some]
        simp only [isBST_mk, ONode.allKeys_some, ONode.isBST_some, allKeys_mk,
          Bool.and_eq_true, decide_eq_true_eq] at h ⊢
        obtain ⟨⟨⟨hlk, ⟨⟨hxk, hbk⟩, hck⟩⟩, hl⟩, ⟨⟨⟨hbx, hcx⟩, hbbst⟩, hcbst⟩⟩ := h
        have hk_lt_xk : c k xk = Ordering.lt := cmp_eq_gt.1 hxk
        refine ⟨⟨⟨⟨⟨hk_lt_xk, ?_⟩, hbx⟩, hcx⟩, ⟨⟨⟨hlk, hbk⟩, hl⟩, hbbst⟩⟩, hcbst⟩
        exact ONode.allKeys_weaken (fun y hy => by
          simp only [decide_eq_true_eq] at hy ⊢
          exact Batteries.TransCmp.lt_trans hy hk_lt_xk) hlk

/-- `insert` only adds the inserted key: any key bound respected by the tree
and by the inserted key is respected by the result. -/
theorem insert_allKeys (c : K → K → Ordering) (key : K) (val : V) (pr : Nat)
    (f : K → Bool) (hkey : f key = true) :
    ∀ {n : Node K V}, n.allKeys f = true →
      ((n.insert c key val pr).1).allKeys f = true := by
  intro n
  induction n using Node.ind with
  | h k v l r p ihl ihr =>
    intro h
    simp only [allKeys_mk, Bool.and_eq_true] at h
    obtain ⟨⟨hk, hl⟩, hr⟩ := h
    cases hc : c key k with
    | eq =>
      rw [insert_mk_eq c key k val v pr p l r hc]
      simp only [allKeys_mk, Bool.and_eq_true]
      exact ⟨⟨hk, hl⟩, hr⟩
    | lt =>
      cases l with
      | some lc =>
        rw [insert_mk_lt_some c key k val v pr p lc r hc]
        have hl' := ihl lc rfl (by simpa using hl)
        have hplain :
            (mk k v (.some ((lc.insert c key val pr).1)) r p).allKeys f = true := by
          simp only [allKeys_mk, ONode.allKeys_some, Bool.and_eq_true]
          exact ⟨⟨hk, hl'⟩, hr⟩
        by_cases hp : p < ((lc.insert c key val pr).1).priority
        · simpa [hp] using (allKeys_rotate_right f _).2 hplain
        · simpa [hp] using hplain
      | none =>
        rw [insert_mk_lt_none c key k val v pr p r hc]
        have hplain :
            (mk k v (.some (Node.new key val pr)) r p).allKeys f = true := by
          simp [Node.new, hkey, hk, hr]
        by_cases hp : p < pr
        · simpa [hp, Node.new] using (allKeys_rotate_right f _).2 hplain
        · simpa [hp, Node.new] using hplain
    | gt =>
      cases r with
      | some rc =>
        rw [insert_mk_gt_some c key k val v pr p l rc hc]
        have hr' := ihr rc rfl (by simpa using hr)
        have hplain :
            (mk k v l (.some ((rc.insert c key val pr).1)) p).allKeys f = true := by
          simp only [allKeys_mk, ONode.allKeys_some, Bool.and_eq_true]
          exact ⟨⟨hk, hl⟩, hr'⟩
        by_cases hp : p < ((rc.insert c key val pr).1).priority
        · simpa [hp] using (allKeys_rotate_left f _).2 hplain
        · simpa [hp] using hplain
      | none =>
        rw [insert_mk_gt_none c key k val v pr p l hc]
        have hplain :
            (mk k v l (.some (Node.new key val pr)) p).allKeys f = true := by
          simp [Node.new, hkey, hk, hl]
        by_cases hp : p < pr
        · simpa [hp, Node.new] using (allKeys_rotate_left f _).2 hplain
        · simpa [hp, Node.new] using hplain

/-- `insert` preserves the BST invariant (claim C2's inductive step). -/
theorem insert_isBST (c : K → K → Ordering) [Batteries.TransCmp c]
    (key : K) (val : V) (pr : Nat) :
    ∀ {n : Node K V}, n.isBST c = true →
      ((n.insert c key val pr).1).isBST c = true := by
  intro n
  induction n using Node.ind with
  | h k v l r p ihl ihr =>
    intro h
    simp only [isBST_mk, Bool.and_eq_true] at h
    obtain ⟨⟨⟨hlk, hrk⟩, hlb⟩, hrb⟩ := h
    cases hc : c key k with
    | eq =>
      rw [insert_mk_eq c key k val v pr p l r hc]
      simp only [isBST_mk, Bool.and_eq_true]
      exact ⟨⟨⟨hlk, hrk⟩, hlb⟩, hrb⟩
    | lt =>
      cases l with
      | some lc =>
        rw [insert_mk_lt_some c key k val v pr p lc r hc]
        have hl'b := ihl lc rfl (by simpa using hlb)
        have hl'k : ((lc.insert c key val pr).1).allKeys
            (fun x => decide (c x k = Ordering.lt)) = true :=
          insert_allKeys c key val pr (fun x => decide (c x k = Ordering.lt))
            (by simp [hc]) (by simpa using hlk)
        have hplain :
            (mk k v (.some ((lc.insert c key val pr).1)) r p).isBST c = true := by
          simp only [isBST_mk, ONode.allKeys_some, ONode.isBST_some, Bool.and_eq_true]
          exact ⟨⟨⟨hl'k, hrk⟩, hl'b⟩, hrb⟩
        by_cases hp : p < ((lc.insert c key val pr).1).priority
        · simpa [hp] using isBST_rotate_right c hplain
        · simpa [hp] using hplain
      | none =>
        rw [insert_mk_lt_none c key k val v pr p r hc]
        have hplain :
            (mk k v (.some (Node.new key val pr)) r p).isBST c = true := by
          simp [Node.new, hc, hrk, hrb]
        by_cases hp : p < pr
        · simpa [hp, Node.new] using isBST_rotate_right c hplain
        · simpa [hp, Node.new] using hplain
    | gt =>
      cases r with
      | some rc =>
        rw [insert_mk_gt_some c key k val v pr p l rc hc]
        have hr'b := ihr rc rfl (by simpa using hrb)
        have hr'k : ((rc.insert c key val pr).1).allKeys
            (fun x => decide (c x k = Ordering.gt)) = true :=
          insert_allKeys c key val pr (fun x => decide (c x k = Ordering.gt))
            (by simp [hc]) (by simpa using hrk)
        have hplain :
            (mk k v l (.some ((rc.insert c key val pr).1)) p).isBST c = true := by
          simp only [isBST_mk, ONode.allKeys_some, ONode.isBST_some, Bool.and_eq_true]
          exact ⟨⟨⟨hlk, hr'k⟩, hlb⟩, hr'b⟩
        by_cases hp : p < ((rc.insert c key val pr).1).priority
        · simpa [hp] using isBST_rotate_left c hplain
        · simpa [hp] using hplain
      | none =>
        rw [insert_mk_gt_none c key k val v pr p l hc]
        have hplain :
            (mk k v l (.some (Node.new key val pr)) p).isBST c = true := by
          simp [Node.new, hc, hlk, hlb]
        by_cases hp : p < pr
        · simpa [hp, Node.new] using isBST_rotate_left c hplain
        · simpa [hp, Node.new] using hplain

open Batteries.OrientedCmp Batteries.TransCmp in
/-- The central routing lemma: on a BST, `insert` rebinds exactly the
`c`-equivalence class of the inserted key — to the inserted value, keeping
the stored key object and raising (never lowering) the stored priority —
and leaves the entry of every other key unchanged. -/
theorem entryFor_insert (c : K → K → Ordering) [Batteries.TransCmp c]
    (key : K) (val : V) (pr : Nat) (q : K) :
    ∀ {n : Node K V}, n.isBST c = true →
      ((n.insert c key val pr).1).entryFor c q =
        if c q key = Ordering.eq then
          some (match n.entryFor c key with
            | Option.some e => (e.1, val, if e.2.2 < pr then pr else e.2.2)
            | Option.none => (key, val, pr))
        else n.entryFor c q := by
  intro n
  induction n using Node.ind with
  | h k v l r p ihl ihr =>
    intro h
    simp only [isBST_mk, Bool.and_eq_true] at h
    obtain ⟨⟨⟨hlk, hrk⟩, hlb⟩, hrb⟩ := h
    cases hc : c key k with
    | eq =>
      rw [insert_mk_eq c key k val v pr p l r hc]
      have hqq : c q key = c q k := cmp_congr_right hc
      rw [entryFor_mk c q _ val, entryFor_mk c key _ v, entryFor_mk c q _ v, hc, hqq]
      cases hq : c q k <;> simp
    | lt =>
      cases l with
      | some lc =>
        rw [insert_mk_lt_some c key k val v pr p lc r hc]
        have lkey : c ((lc.insert c key val pr).1).key k = Ordering.lt := by
          have hall := insert_allKeys c key val pr
            (fun x => decide (c x k = Ordering.lt)) (by simp [hc])
            (by simpa using hlk)
          simpa using allKeys_key hall
        have core :
            (mk k v (.some ((lc.insert c key val pr).1)) r p).entryFor c q =
            if c q key = Ordering.eq then
              some (match (mk k v (.some lc) r p).entryFor c key with
                | Option.some e => (e.1, val, if e.2.2 < pr then pr else e.2.2)
                | Option.none => (key, val, pr))
            else (mk k v (.some lc) r p).entryFor c q := by
          rw [entryFor_mk c q, entryFor_mk c key, entryFor_mk c q, hc,
            ONode.entryFor_some, ONode.entryFor_some]
          cases hq : c q k with
          | eq =>
            have hqkey : c q key = Ordering.gt := by
              rw [cmp_congr_left hq]
              exact cmp_eq_gt.2 hc
            simp [hqkey]
          | lt =>
            rw [ONode.entryFor_some, ihl lc rfl (by simpa using hlb)]
          | gt =>
            have hqkey : c q key = Ordering.gt :=
              cmp_eq_gt.2 (lt_trans hc (cmp_eq_gt.1 hq))
            simp [hqkey]
        by_cases hp : p < ((lc.insert c key val pr).1).priority
        · calc ((if p < ((lc.insert c key val pr).1).priority
                then (mk k v (.some ((lc.insert c key val pr).1)) r p).rotate_right
                else mk k v (.some ((lc.insert c key val pr).1)) r p,
              (lc.insert c key val pr).2).1).entryFor c q
              = ((mk k v (.some ((lc.insert c key val pr).1)) r p).rotate_right).entryFor
                  c q := by rw [if_pos hp]
            _ = (mk k v (.some ((lc.insert c key val pr).1)) r p).entryFor c q :=
                entryFor_rotate_right c q lkey
            _ = _ := core
        · calc ((if p < ((lc.insert c key val pr).1).priority
                then (mk k v (.some ((lc.insert c key val pr).1)) r p).rotate_right
                else mk k v (.some ((lc.insert c key val pr).1)) r p,
              (lc.insert c key val pr).2).1).entryFor c q
              = (mk k v (.some ((lc.insert c key val pr).1)) r p).entryFor c q := by
                rw [if_neg hp]
            _ = _ := core
      | none =>
        rw [insert_mk_lt_none c key k val v pr p r hc]
        have lkey : c (Node.new key val pr).key k = Ordering.lt := by
          simpa [Node.new] using hc
        have core :
            (mk k v (.some (Node.new key val pr)) r p).entryFor c q =
            if c q key = Ordering.eq then
              some (match (mk k v .none r p).entryFor c key with
                | Option.some e => (e.1, val, if e.2.2 < pr then pr else e.2.2)
                | Option.none => (key, val, pr))
            else (mk k v .none r p).entryFor c q := by
          rw [entryFor_mk c q, entryFor_mk c key, entryFor_mk c q, hc]
          cases hq : c q k with
          | eq =>
            have hqkey : c q key = Ordering.gt := by
              rw [cmp_congr_left hq]
              exact cmp_eq_gt.2 hc
            simp [hqkey]
          | lt =>
            rw [ONode.entryFor_some]
            unfold Node.new
            rw [entryFor_mk c q]
            cases hq2 : c q key <;> simp [hq2]
          | gt =>
            have hqkey : c q key = Ordering.gt :=
              cmp_eq_gt.2 (lt_trans hc (cmp_eq_gt.1 hq))
            simp [hqkey]
        by_cases hp : p < pr
        · calc ((if p < pr
                then (mk k v (.some (Node.new key val pr)) r p).rotate_right
                else mk k v (.some (Node.new key val pr)) r p,
              (Option.none : Option V)).1).entryFor c q
              = ((mk k v (.some (Node.new key val pr)) r p).rotate_right).entryFor
                  c q := by rw [if_pos hp]
            _ = (mk k v (.some (Node.new key val pr)) r p).entryFor c q :=
                entryFor_rotate_right c q lkey
            _ = _ := core
        · calc ((if p < pr
                then (mk k v (.some (Node.new key val pr)) r p).rotate_right
                else mk k v (.some (Node.new key val pr)) r p,
              (Option.none : Option V)).1).entryFor c q
              = (mk k v (.some (Node.new key val pr)) r p).entryFor c q := by
                rw [if_neg hp]
            _ = _ := core
    | gt =>
      cases r with
      | some rc =>
        rw [insert_mk_gt_some c key k val v pr p l rc hc]
        have rkey : c ((rc.insert c key val pr).1).key k = Ordering.gt := by
          have hall := insert_allKeys c key val pr
            (fun x => decide (c x k = Ordering.gt)) (by simp [hc])
            (by simpa using hrk)
          simpa using allKeys_key hall
        have core :
            (mk k v l (.some ((rc.insert c key val pr).1)) p).entryFor c q =
            if c q key = Ordering.eq then
              some (match (mk k v l (.some rc) p).entryFor c key with
                | Option.some e => (e.1, val, if e.2.2 < pr then pr else e.2.2)
                | Option.none => (key, val, pr))
            else (mk k v l (.some rc) p).entryFor c q := by
          rw [entryFor_mk c q, entryFor_mk c key, entryFor_mk c q, hc,
            ONode.entryFor_some, ONode.entryFor_some]
          cases hq : c q k with
          | eq =>
            have hqkey : c q key = Ordering.lt := by
              rw [cmp_congr_left hq]
              exact cmp_eq_gt.1 hc
            simp [hqkey]
          | lt =>
            have hqkey : c q key = Ordering.lt :=
              lt_trans hq (cmp_eq_gt.1 hc)
            simp [hqkey]
          | gt =>
            rw [ONode.entryFor_some, ihr rc rfl (by simpa using hrb)]
        by_cases hp : p < ((rc.insert c key val pr).1).priority
        · calc ((if p < ((rc.insert c key val pr).1).priority
                then (mk k v l (.some ((rc.insert c key val pr).1)) p).rotate_left
                else mk k v l (.some ((rc.insert c key val pr).1)) p,
              (rc.insert c key val pr).2).1).entryFor c q
              = ((mk k v l (.some ((rc.insert c key val pr).1)) p).rotate_left).entryFor
                  c q := by rw [if_pos hp]
            _ = (mk k v l (.some ((rc.insert c key val pr).1)) p).entryFor c q :=
                entryFor_rotate_left c q rkey
            _ = _ := core
        · calc ((if p < ((rc.insert c key val pr).1).priority
                then (mk k v l (.some ((rc.insert c key val pr).1)) p).rotate_left
                else mk k v l (.some ((rc.insert c key val pr).1)) p,
              (rc.insert c key val pr).2).1).entryFor c q
              = (mk k v l (.some ((rc.insert c key val pr).1)) p).entryFor c q := by
                rw [if_neg hp]
            _ = _ := core
      | none =>
        rw [insert_mk_gt_none c key k val v pr p l hc]
        have rkey : c (Node.new key val pr).key k = Ordering.gt := by
          simpa [Node.new] using hc
        have core :
            (mk k v l (.some (Node.new key val pr)) p).entryFor c q =
            if c q key = Ordering.eq then
              some (match (mk k v l .none p).entryFor c key with
                | Option.some e => (e.1, val, if e.2.2 < pr then pr else e.2.2)
                | Option.none => (key, val, pr))
            else (mk k v l .none p).entryFor c q := by
          rw [entryFor_mk c q, entryFor_mk c key, entryFor_mk c q, hc]
          cases hq : c q k with
          | eq =>
            have hqkey : c q key = Ordering.lt := by
              rw [cmp_congr_left hq]
              exact cmp_eq_gt.1 hc
            simp [hqkey]
          | lt =>
            have hqkey : c q key = Ordering.lt :=
              lt_trans hq (cmp_eq_gt.1 hc)
            simp [hqkey]
          | gt =>
            rw [ONode.entryFor_some]
            unfold Node.new
            rw [entryFor_mk c q]
            cases hq2 : c q key <;> simp [hq2]
        by_cases hp : p < pr
        · calc ((if p < pr
                then (mk k v l (.some (Node.new key val pr)) p).rotate_left
                else mk k v l (.some (Node.new key val pr)) p,
              (Option.none : Option V)).1).entryFor c q
              = ((mk k v l (.some (Node.new key val pr)) p).rotate_left).entryFor
                  c q := by rw [if_pos hp]
            _ = (mk k v l (.some (Node.new key val pr)) p).entryFor c q :=
                entryFor_rotate_left c q rkey
            _ = _ := core
        · calc ((if p < pr
                then (mk k v l (.some (Node.new key val pr)) p).rotate_left
                else mk k v l (.some (Node.new key val pr)) p,
              (Option.none : Option V)).1).entryFor c q
              = (mk k v l (.some (Node.new key val pr)) p).entryFor c q := by
                rw [if_neg hp]
            _ = _ := core

/-- The value returned by `insert` is exactly what `get` would have returned
just before the call, for any comparator. -/
theorem snd_insert_eq_get (c : K → K → Ordering) (key : K) (val : V) (pr : Nat) :
    ∀ n : Node K V, (n.insert c key val pr).2 = n.get c key := by
  intro n
  induction n using Node.ind with
  | h k v l r p ihl ihr =>
    cases hc : c key k with
    | eq =>
      rw [insert_mk_eq c key k val v pr p l r hc, get_mk, hc]
    | lt =>
      cases l with
      | some lc =>
        rw [insert_mk_lt_some c key k val v pr p lc r hc, get_mk, hc,
          ONode.get_some]
        exact ihl lc rfl
      | none =>
        rw [insert_mk_lt_none c key k val v pr p r hc, get_mk, hc, ONode.get_none]
    | gt =>
      cases r with
      | some rc =>
        rw [insert_mk_gt_some c key k val v pr p l rc hc, get_mk, hc,
          ONode.get_some]
        exact ihr rc rfl
      | none =>
        rw [insert_mk_gt_none c key k val v pr p l hc, get_mk, hc, ONode.get_none]

/-- `insert` grows the node count by one exactly when the key was absent. -/
theorem size_insert (c : K → K → Ordering) (key : K) (val : V) (pr : Nat) :
    ∀ n : Node K V,
      ((n.insert c key val pr).1).size =
        n.size + (if (n.get c key).isSome then 0 else 1) := by
  intro n
  induction n using Node.ind with
  | h k v l r p ihl ihr =>
    cases hc : c key k with
    | eq =>
      rw [insert_mk_eq c key k val v pr p l r hc, get_mk, hc]
      simp
    | lt =>
      cases l with
      | some lc =>
        rw [insert_mk_lt_some c key k val v pr p lc r hc, get_mk, hc,
          ONode.get_some]
        have ih := ihl lc rfl
        by_cases hp : p < ((lc.insert c key val pr).1).priority
        · rw [if_pos hp]
          simp only [size_rotate_right, size_mk, ONode.size_some]
          omega
        · rw [if_neg hp]
          simp only [size_mk, ONode.size_some]
          omega
      | none =>
        rw [insert_mk_lt_none c key k val v pr p r hc, get_mk, hc, ONode.get_none]
        by_cases hp : p < pr
        · rw [if_pos hp]
          simp [Node.new] <;> omega
        · rw [if_neg hp]
          simp [Node.new] <;> omega
    | gt =>
      cases r with
      | some rc =>
        rw [insert_mk_gt_some c key k val v pr p l rc hc, get_mk, hc,
          ONode.get_some]
        have ih := ihr rc rfl
        by_cases hp : p < ((rc.insert c key val pr).1).priority
        · rw [if_pos hp]
          simp only [size_rotate_left, size_mk, ONode.size_some]
          omega
        · rw [if_neg hp]
          simp only [size_mk, ONode.size_some]
          omega
      | none =>
        rw [insert_mk_gt_none c key k val v pr p l hc, get_mk, hc, ONode.get_none]
        by_cases hp : p < pr
        · rw [if_pos hp]
          simp [Node.new] <;> omega
        · rw [if_neg hp]
          simp [Node.new] <;> omega

/-- Re-inserting a present key leaves the in-order sequence of stored key
objects exactly unchanged (the stored key is kept, and rotations preserve
the in-order sequence). -/
theorem keysList_insert (c : K → K → Ordering) (key : K) (val : V) (pr : Nat) :
    ∀ n : Node K V, (n.get c key).isSome = true →
      ((n.insert c key val pr).1).keysList = n.keysList := by
  intro n
  induction n using Node.ind with
  | h k v l r p ihl ihr =>
    intro hpresent
    rw [get_mk] at hpresent
    cases hc : c key k with
    | eq =>
      rw [insert_mk_eq c key k val v pr p l r hc]
      simp
    | lt =>
      rw [hc] at hpresent
      cases l with
      | some lc =>
        rw [insert_mk_lt_some c key k val v pr p lc r hc]
        have ih := ihl lc rfl (by simpa using hpresent)
        by_cases hp : p < ((lc.insert c key val pr).1).priority
        · rw [if_pos hp, keysList_rotate_right]
          simp [ih]
        · rw [if_neg hp]
          simp [ih]
      | none =>
        simp at hpresent
    | gt =>
      rw [hc] at hpresent
      cases r with
      | some rc =>
        rw [insert_mk_gt_some c key k val v pr p l rc hc]
        have ih := ihr rc rfl (by simpa using hpresent)
        by_cases hp : p < ((rc.insert c key val pr).1).priority
        · rw [if_pos hp, keysList_rotate_left]
          simp [ih]
        · rw [if_neg hp]
          simp [ih]
      | none =>
        simp at hpresent

end Node

namespace ONode

theorem prioLe_mono {a b : Nat} (hab : a ≤ b) {o : ONode K V}
    (h : o.prioLe a = true) : o.prioLe b = true := by
  cases o with
  | none => rfl
  | some n => simp only [prioLe_some, decide_eq_true_eq] at h ⊢; omega

theorem allPrioLe_weaken {a b : Nat} (hab : a ≤ b) {o : ONode K V}
    (h : o.allPrioLe a = true) : o.allPrioLe b = true := by
  cases o with
  | none => rfl
  | some n => simpa using Node.allPrioLe_mono hab (by simpa using h)

theorem prioLe_of_allPrioLe {b : Nat} {o : ONode K V}
    (h : o.allPrioLe b = true) : o.prioLe b = true := by
  cases o with
  | none => rfl
  | some n =>
    simp only [prioLe_some, decide_eq_true_eq]
    exact Node.allPrioLe_priority (by simpa using h)

/-- A heap-shaped optional subtree whose root priority is bounded by `b` has
all its priorities bounded by `b`. -/
theorem heap_allPrioLe {b : Nat} {o : ONode K V} (hh : o.isHeap = true)
    (hp : o.prioLe b = true) : o.allPrioLe b = true := by
  cases o with
  | none => rfl
  | some n =>
    simp only [prioLe_some, decide_eq_true_eq] at hp
    simpa using Node.allPrioLe_mono hp (Node.isHeap_allPrioLe (by simpa using hh))

end ONode

namespace Node

/-- Assemble `allPrioLe` from a bound on the root and on both subtrees. -/
theorem allPrioLe_build {b : Nat} {n : Node K V} (h1 : n.priority ≤ b)
    (h2 : n.left.allPrioLe b = true) (h3 : n.right.allPrioLe b = true) :
    n.allPrioLe b = true := by
  cases n with
  | mk k v l r p =>
    simp only [priority_mk, left_mk, right_mk] at h1 h2 h3
    simp [h1, h2, h3]

/-- The main heap-preservation lemma for `insert` (claim C3's inductive
step), with the strengthened invariants the induction needs: the result is a
heap, its root priority is at most `max` of the old root priority and the
inserted priority, and every priority strictly below the result root was
already bounded by the old root priority. -/
theorem insert_isHeap (c : K → K → Ordering) (key : K) (val : V) (pr : Nat) :
    ∀ {n : Node K V}, n.isHeap = true →
      ((n.insert c key val pr).1).isHeap = true ∧
      ((n.insert c key val pr).1).priority ≤ max n.priority pr ∧
      ((n.insert c key val pr).1).left.allPrioLe n.priority = true ∧
      ((n.insert c key val pr).1).right.allPrioLe n.priority = true := by
  intro n
  induction n using Node.ind with
  | h k v l r p ihl ihr =>
    intro h
    simp only [isHeap_mk, Bool.and_eq_true] at h
    obtain ⟨⟨⟨hlp, hrp⟩, hlh⟩, hrh⟩ := h
    cases hc : c key k with
    | eq =>
      rw [insert_mk_eq c key k val v pr p l r hc]
      have hple : p ≤ if p < pr then pr else p := by split <;> omega
      refine ⟨?_, ?_, ?_, ?_⟩
      · simp only [isHeap_mk, Bool.and_eq_true]
        exact ⟨⟨⟨ONode.prioLe_mono hple hlp, ONode.prioLe_mono hple hrp⟩, hlh⟩, hrh⟩
      · simp only [priority_mk]
        split <;> omega
      · simpa using ONode.heap_allPrioLe hlh hlp
      · simpa using ONode.heap_allPrioLe hrh hrp
    | lt =>
      cases l with
      | some lc =>
        rw [insert_mk_lt_some c key k val v pr p lc r hc]
        simp only [ONode.prioLe_some, decide_eq_true_eq] at hlp
        obtain ⟨ih1, ih2, ih3, ih4⟩ := ihl lc rfl (by simpa using hlh)
        by_cases hp : p < ((lc.insert c key val pr).1).priority
        · rw [if_pos hp]
          cases hl' : (lc.insert c key val pr).1 with
          | mk xk xv a b xp =>
            rw [hl'] at ih1 ih2 ih3 ih4 hp
            simp only [isHeap_mk, Bool.and_eq_true] at ih1
            obtain ⟨⟨⟨hap, hbp⟩, hah⟩, hbh⟩ := ih1
            simp only [priority_mk, left_mk, right_mk] at ih2 ih3 ih4 hp
            rw [rotate_right_some]
            refine ⟨?_, ?_, ?_, ?_⟩
            · simp only [isHeap_mk, ONode.prioLe_some, ONode.isHeap_some,
                priority_mk, Bool.and_eq_true, decide_eq_true_eq]
              refine ⟨⟨⟨hap, by omega⟩, hah⟩, ?_⟩
              have hbp2 : b.prioLe p = true :=
                ONode.prioLe_mono hlp (ONode.prioLe_of_allPrioLe ih4)
              exact ⟨⟨⟨hbp2, hrp⟩, hbh⟩, hrh⟩
            · simp only [priority_mk] at ih2 ⊢
              omega
            · simp only [left_mk]
              exact ONode.allPrioLe_weaken hlp ih3
            · simp only [right_mk, ONode.allPrioLe_some]
              refine allPrioLe_build (by simp) ?_ ?_
              · simpa using ONode.allPrioLe_weaken hlp ih4
              · simpa using ONode.heap_allPrioLe hrh hrp
        · rw [if_neg hp]
          refine ⟨?_, ?_, ?_, ?_⟩
          · simp only [isHeap_mk, ONode.prioLe_some, ONode.isHeap_some,
              Bool.and_eq_true, decide_eq_true_eq]
            exact ⟨⟨⟨by omega, hrp⟩, ih1⟩, hrh⟩
          · simp only [priority_mk]
            omega
          · simp only [left_mk, ONode.allPrioLe_some]
            refine allPrioLe_build (by simp only [priority_mk]; omega) ?_ ?_
            · exact ONode.allPrioLe_weaken hlp ih3
            · exact ONode.allPrioLe_weaken hlp ih4
          · simp only [right_mk]
            exact ONode.heap_allPrioLe hrh hrp
      | none =>
        rw [insert_mk_lt_none c key k val v pr p r hc]
        by_cases hp : p < pr
        · rw [if_pos hp]
          rw [show Node.new key val pr = mk key val .none .none pr from rfl,
            rotate_right_some]
          refine ⟨?_, ?_, ?_, ?_⟩
          · simp only [isHeap_mk, ONode.prioLe_some, ONode.isHeap_some,
              ONode.prioLe_none, ONode.isHeap_none, priority_mk,
              Bool.and_eq_true, decide_eq_true_eq]
            exact ⟨⟨⟨trivial, by omega⟩, trivial⟩, ⟨⟨⟨trivial, hrp⟩, trivial⟩, hrh⟩⟩
          · simp only [priority_mk]
            omega
          · simp
          · simp only [right_mk, ONode.allPrioLe_some]
            refine allPrioLe_build (by simp) (by simp) ?_
            simpa using ONode.heap_allPrioLe hrh hrp
        · rw [if_neg hp]
          refine ⟨?_, ?_, ?_, ?_⟩
          · simp only [isHeap_mk, ONode.prioLe_some, ONode.isHeap_some,
              Bool.and_eq_true, decide_eq_true_eq, Node.new]
            exact ⟨⟨⟨by simp; omega, hrp⟩, by simp⟩, hrh⟩
          · simp only [priority_mk]
            omega
          · simp only [left_mk, ONode.allPrioLe_some, Node.new]
            simp
            omega
          · simp only [right_mk]
            exact ONode.heap_allPrioLe hrh hrp
    | gt =>
      cases r with
      | some rc =>
        rw [insert_mk_gt_some c key k val v pr p l rc hc]
        simp only [ONode.prioLe_some, decide_eq_true_eq] at hrp
        obtain ⟨ih1, ih2, ih3, ih4⟩ := ihr rc rfl (by simpa using hrh)
        by_cases hp : p < ((rc.insert c key val pr).1).priority
        · rw [if_pos hp]
          cases hr' : (rc.insert c key val pr).1 with
          | mk xk xv b2 c2 xp =>
            rw [hr'] at ih1 ih2 ih3 ih4 hp
            simp only [isHeap_mk, Bool.and_eq_true] at ih1
            obtain ⟨⟨⟨hbp, hcp⟩, hbh⟩, hch⟩ := ih1
            simp only [priority_mk, left_mk, right_mk] at ih2 ih3 ih4 hp
            rw [rotate_left_some]
            refine ⟨?_, ?_, ?_, ?_⟩
            · simp only [isHeap_mk, ONode.prioLe_some, ONode.isHeap_some,
                priority_mk, Bool.and_eq_true, decide_eq_true_eq]
              refine ⟨⟨⟨by omega, hcp⟩, ?_⟩, hch⟩
              have hbp2 : b2.prioLe p = true :=
                ONode.prioLe_mono hrp (ONode.prioLe_of_allPrioLe ih3)
              exact ⟨⟨⟨hlp, hbp2⟩, hlh⟩, hbh⟩
            · simp only [priority_mk] at ih2 ⊢
              omega
            · simp only [left_mk, ONode.allPrioLe_some]
              refine allPrioLe_build (by simp) ?_ ?_
              · simpa using ONode.heap_allPrioLe hlh hlp
              · simpa using ONode.allPrioLe_weaken hrp ih3
            · simp only [right_mk]
              exact ONode.allPrioLe_weaken hrp ih4
        · rw [if_neg hp]
          refine ⟨?_, ?_, ?_, ?_⟩
          · simp only [isHeap_mk, ONode.prioLe_some, ONode.isHeap_some,
              Bool.and_eq_true, decide_eq_true_eq]
            exact ⟨⟨⟨hlp, by omega⟩, hlh⟩, ih1⟩
          · simp only [priority_mk]
            omega
          · simp only [left_mk]
            exact ONode.heap_allPrioLe hlh hlp
          · simp only [right_mk, ONode.allPrioLe_some]
            refine allPrioLe_build (by simp only [priority_mk]; omega) ?_ ?_
            · exact ONode.allPrioLe_weaken hrp ih3
            · exact ONode.allPrioLe_weaken hrp ih4
      | none =>
        rw [insert_mk_gt_none c key k val v pr p l hc]
        by_cases hp : p < pr
        · rw [if_pos hp]
          rw [show Node.new key val pr = mk key val .none .none pr from rfl,
            rotate_left_some]
          refine ⟨?_, ?_, ?_, ?_⟩
          · simp only [isHeap_mk, ONode.prioLe_some, ONode.isHeap_some,
              ONode.prioLe_none, ONode.isHeap_none, priority_mk,
              Bool.and_eq_true, decide_eq_true_eq]
            exact ⟨⟨⟨by omega, trivial⟩, ⟨⟨⟨hlp, trivial⟩, hlh⟩, trivial⟩⟩, trivial⟩
          · simp only [priority_mk]
            omega
          · simp only [left_mk, ONode.allPrioLe_some]
            refine allPrioLe_build (by simp) ?_ (by simp)
            simpa using ONode.heap_allPrioLe hlh hlp
          · simp
        · rw [if_neg hp]
          refine ⟨?_, ?_, ?_, ?_⟩
          · simp only [isHeap_mk, ONode.prioLe_some, ONode.isHeap_some,
              Bool.and_eq_true, decide_eq_true_eq, Node.new]
            exact ⟨⟨⟨hlp, by simp; omega⟩, hlh⟩, by simp⟩
          · simp only [priority_mk]
            omega
          · simp only [left_mk]
            exact ONode.heap_allPrioLe hlh hlp
          · simp only [right_mk, ONode.allPrioLe_some, Node.new]
            simp
            omega

end Node

/-! ## Map-level lemmas -/

namespace TreapMap

/-- Map-level: the value returned by `TreapMap.insert` is what `TreapMap.get`
would have returned just before the call. -/
theorem snd_insert (c : K → K → Ordering) (m : TreapMap K V) (k : K) (v : V)
    (p : Nat) : (m.insert c k v p).2 = m.get c k := by
  cases hroot : m.root with
  | none => simp [insert, get, hroot]
  | some root => simp [insert, get, hroot, Node.snd_insert_eq_get]

/-- Map-level `get` after `insert`: the inserted key class now maps to the
inserted value and nothing else changed. -/
theorem get_insert (c : K → K → Ordering) [Batteries.TransCmp c]
    (m : TreapMap K V) (hb : m.root.isBST c = true) (k : K) (v : V) (p : Nat)
    (q : K) :
    ((m.insert c k v p).1).get c q =
      if c q k = Ordering.eq then some v else m.get c q := by
  cases hroot : m.root with
  | none =>
    simp only [insert, get, hroot, ONode.get_some, ONode.get_none]
    unfold Node.new
    rw [Node.get_mk]
    cases hq : c q k <;> simp [hq]
  | some root =>
    have hb' : root.isBST c = true := by rw [hroot] at hb; simpa using hb
    simp only [insert, get, hroot, ONode.get_some]
    rw [Node.get_eq_entryFor, Node.get_eq_entryFor,
      Node.entryFor_insert c k v p q hb']
    by_cases hq : c q k = Ordering.eq
    · rw [if_pos hq, if_pos hq]
      cases he : root.entryFor c k <;> simp
    · rw [if_neg hq, if_neg hq]

/-- `insert` keeps the root a BST. -/
theorem root_isBST_insert (c : K → K → Ordering) [Batteries.TransCmp c]
    (m : TreapMap K V) (hb : m.root.isBST c = true) (k : K) (v : V) (p : Nat) :
    ((m.insert c k v p).1).root.isBST c = true := by
  cases hroot : m.root with
  | none => simp [insert, hroot, Node.new]
  | some root =>
    have hb' : root.isBST c = true := by rw [hroot] at hb; simpa using hb
    simp only [insert, hroot, ONode.isBST_some]
    exact Node.insert_isBST c k v p hb'

/-- `insert` keeps the root a max-heap on priorities, for any comparator. -/
theorem root_isHeap_insert (c : K → K → Ordering) (m : TreapMap K V)
    (hh : m.root.isHeap = true) (k : K) (v : V) (p : Nat) :
    ((m.insert c k v p).1).root.isHeap = true := by
  cases hroot : m.root with
  | none => simp [insert, hroot, Node.new]
  | some root =>
    have hh' : root.isHeap = true := by rw [hroot] at hh; simpa using hh
    simp only [insert, hroot, ONode.isHeap_some]
    exact (Node.insert_isHeap c k v p hh').1

/-- `insert` keeps `len` equal to the node count. -/
theorem len_size_insert (c : K → K → Ordering) (m : TreapMap K V)
    (hl : m.len = m.root.size) (k : K) (v : V) (p : Nat) :
    ((m.insert c k v p).1).len = ((m.insert c k v p).1).root.size := by
  cases hroot : m.root with
  | none =>
    rw [hroot] at hl
    simp [insert, hroot, Node.new, hl]
  | some root =>
    rw [hroot] at hl
    simp only [ONode.size_some] at hl
    simp only [insert, hroot, ONode.size_some]
    rw [Node.size_insert c k v p root, Node.snd_insert_eq_get c k v p root]
    cases hget : root.get c k <;> simp [hl]

/-- BST invariant along any insertion sequence. -/
theorem applyOps_isBST (c : K → K → Ordering) [Batteries.TransCmp c]
    (ops : List (K × V × Nat)) :
    ∀ m : TreapMap K V, m.root.isBST c = true →
      (applyOps c m ops).root.isBST c = true := by
  induction ops with
  | nil => intro m h; simpa [applyOps] using h
  | cons e rest ih =>
    obtain ⟨k, v, p⟩ := e
    intro m h
    simp only [applyOps]
    exact ih _ (root_isBST_insert c m h k v p)

/-- Heap invariant along any insertion sequence. -/
theorem applyOps_isHeap (c : K → K → Ordering) (ops : List (K × V × Nat)) :
    ∀ m : TreapMap K V, m.root.isHeap = true →
      (applyOps c m ops).root.isHeap = true := by
  induction ops with
  | nil => intro m h; simpa [applyOps] using h
  | cons e rest ih =>
    obtain ⟨k, v, p⟩ := e
    intro m h
    simp only [applyOps]
    exact ih _ (root_isHeap_insert c m h k v p)

/-- `len` equals the node count along any insertion sequence. -/
theorem applyOps_len_size (c : K → K → Ordering) (ops : List (K × V × Nat)) :
    ∀ m : TreapMap K V, m.len = m.root.size →
      (applyOps c m ops).len = (applyOps c m ops).root.size := by
  induction ops with
  | nil => intro m h; simpa [applyOps] using h
  | cons e rest ih =>
    obtain ⟨k, v, p⟩ := e
    intro m h
    simp only [applyOps]
    exact ih _ (len_size_insert c m h k v p)

theorem mostRecent_cons (c : K → K → Ordering) (k : K) (v : V) (p : Nat)
    (rest : List (K × V × Nat)) (q : K) :
    mostRecent c ((k, v, p) :: rest) q =
      (mostRecent c rest q).or
        (if c q k = Ordering.eq then some v else Option.none) := by
  unfold mostRecent
  rw [List.reverse_cons, List.find?_append]
  cases hf : rest.reverse.find? fun e => decide (c q e.1 = Ordering.eq) with
  | some e => simp
  | none =>
    by_cases hq : c q k = Ordering.eq <;> simp [List.find?, hq]

/-- Functional characterisation of an insertion sequence: `get` returns the
most recently inserted value for the queried key class, falling back to the
starting map. -/
theorem get_applyOps (c : K → K → Ordering) [Batteries.TransCmp c]
    (ops : List (K × V × Nat)) :
    ∀ (m : TreapMap K V), m.root.isBST c = true → ∀ q : K,
      (applyOps c m ops).get c q = (mostRecent c ops q).or (m.get c q) := by
  induction ops with
  | nil =>
    intro m hb q
    simp [applyOps, mostRecent, Option.none_or]
  | cons e rest ih =>
    obtain ⟨k, v, p⟩ := e
    intro m hb q
    simp only [applyOps]
    rw [ih _ (root_isBST_insert c m hb k v p) q, mostRecent_cons,
      get_insert c m hb k v p q, Option.or_assoc]
    by_cases hq : c q k = Ordering.eq <;>
      cases hmr : mostRecent c rest q <;> simp [hq]

end TreapMap

/-! ## Element-count accounting -/

namespace TreapMap

/-- `len` grows by one exactly when the returned previous value is absent. -/
theorem len_insert (c : K → K → Ordering) (m : TreapMap K V) (k : K) (v : V)
    (p : Nat) :
    ((m.insert c k v p).1).len =
      m.len + if (m.insert c k v p).2.isNone then 1 else 0 := by
  cases hroot : m.root with
  | none => simp [insert, hroot]
  | some root =>
    simp only [insert, hroot]
    cases (root.insert c k v p).2 <;> simp

theorem dedupStep_length (c : K → K → Ordering) (acc : List K) (e : K × V × Nat) :
    acc.length ≤ (dedupStep c acc e).length := by
  unfold dedupStep
  split <;> simp

theorem foldl_dedupStep_length (c : K → K → Ordering) (ops : List (K × V × Nat)) :
    ∀ acc : List K, acc.length ≤ (ops.foldl (dedupStep c) acc).length := by
  induction ops with
  | nil => intro acc; simp
  | cons e rest ih =>
    intro acc
    simp only [List.foldl_cons]
    exact le_trans (dedupStep_length c acc e) (ih _)

open Batteries.TransCmp in
/-- Accounting invariant: walking the operation list, the map's `len` grows in
lockstep with the deduplicated key accumulator, provided the accumulator
describes exactly the keys present in the map. -/
theorem len_applyOps_acc (c : K → K → Ordering) [Batteries.TransCmp c]
    (ops : List (K × V × Nat)) :
    ∀ (m : TreapMap K V) (acc : List K),
      m.root.isBST c = true →
      (∀ x, (m.get c x).isSome = acc.any fun y => decide (c x y = Ordering.eq)) →
      (applyOps c m ops).len + acc.length =
        m.len + (ops.foldl (dedupStep c) acc).length := by
  induction ops with
  | nil => intro m acc hb hacc; simp [applyOps]
  | cons e rest ih =>
    obtain ⟨k, v, p⟩ := e
    intro m acc hb hacc
    simp only [applyOps, List.foldl_cons]
    have hb' := root_isBST_insert c m hb k v p
    have hsnd := snd_insert c m k v p
    have hlen := len_insert c m k v p
    by_cases hk : (m.get c k).isSome = true
    · -- the key class is already present: `len` and the accumulator both stay
      have hstep : dedupStep c acc (k, v, p) = acc := by
        unfold dedupStep
        rw [if_pos]
        rw [← hacc k]
        exact hk
      have hlen' : ((m.insert c k v p).1).len = m.len := by
        rw [hlen, hsnd]
        cases hv : m.get c k with
        | none => rw [hv] at hk; simp at hk
        | some w => simp
      have hacc' : ∀ x, (((m.insert c k v p).1).get c x).isSome =
          acc.any fun y => decide (c x y = Ordering.eq) := by
        intro x
        rw [get_insert c m hb k v p x]
        by_cases hx : c x k = Ordering.eq
        · rw [if_pos hx]
          have hfun : (fun y => decide (c x y = Ordering.eq)) =
              (fun y => decide (c k y = Ordering.eq)) := by
            funext y
            rw [cmp_congr_left hx]
          rw [hfun, ← hacc k]
          simpa using hk.symm
        · rw [if_neg hx]
          exact hacc x
      rw [ih _ acc hb' hacc', hstep, hlen']
    · -- fresh key class: both sides grow by one
      have hk' : (m.get c k).isSome = false := by
        cases hv : m.get c k with
        | none => rfl
        | some w => rw [hv] at hk; simp at hk
      have hstep : dedupStep c acc (k, v, p) = k :: acc := by
        unfold dedupStep
        rw [if_neg]
        rw [← hacc k, hk']
        simp
      have hlen' : ((m.insert c k v p).1).len = m.len + 1 := by
        rw [hlen, hsnd]
        cases hv : m.get c k with
        | none => simp
        | some w => rw [hv] at hk'; simp at hk'
      have hacc' : ∀ x, (((m.insert c k v p).1).get c x).isSome =
          (k :: acc).any fun y => decide (c x y = Ordering.eq) := by
        intro x
        rw [get_insert c m hb k v p x, List.any_cons]
        by_cases hx : c x k = Ordering.eq
        · rw [if_pos hx]
          simp [hx]
        · rw [if_neg hx]
          simpa [hx] using hacc x
      have hih := ih _ (k :: acc) hb' hacc'
      simp only [List.length_cons] at hih
      rw [hlen'] at hih
      rw [hstep]
      omega

/-- From the empty map, `len` counts the distinct inserted key classes. -/
theorem len_applyOps_distinct (c : K → K → Ordering) [Batteries.TransCmp c]
    (ops : List (K × V × Nat)) :
    (applyOps c TreapMap.new ops).len = distinctKeys c ops := by
  have h := len_applyOps_acc c ops TreapMap.new []
    (by simp [TreapMap.new]) (fun x => by simp [get, TreapMap.new])
  simpa [distinctKeys, TreapMap.new] using h

end TreapMap

/-! ## Recursion depth is bounded by the tree height -/

namespace Node

theorem height_pos (n : Node K V) : 1 ≤ n.height := by
  cases n with
  | mk k v l r p => simp

theorem getFuel_succ (c : K → K → Ordering) (q k : K) (v : V) (l r : ONode K V)
    (p fuel : Nat) :
    Node.getFuel c q (fuel + 1) (mk k v l r p) =
      match c q k with
      | .eq => some (some v)
      | .lt =>
        match l with
        | .some n => Node.getFuel c q fuel n
        | .none => some Option.none
      | .gt =>
        match r with
        | .some n => Node.getFuel c q fuel n
        | .none => some Option.none := by
  cases hc : c q k <;> cases l <;> cases r <;> simp [Node.getFuel, hc]

/-- `get` needs recursion depth at most the tree height: with any fuel budget
of at least `height`, the fuel-indexed descent finishes and computes `get`. -/
theorem getFuel_spec (c : K → K → Ordering) (q : K) :
    ∀ (n : Node K V) (fuel : Nat), n.height ≤ fuel →
      Node.getFuel c q fuel n = some (n.get c q) := by
  intro n
  induction n using Node.ind with
  | h k v l r p ihl ihr =>
    intro fuel hf
    cases fuel with
    | zero => simp at hf
    | succ fuel =>
      simp only [height_mk] at hf
      rw [getFuel_succ, get_mk]
      cases hc : c q k with
      | eq => rfl
      | lt =>
        cases l with
        | none => rfl
        | some lc =>
          have : lc.height ≤ fuel := by
            simp only [ONode.height_some] at hf
            omega
          exact ihl lc rfl fuel this
      | gt =>
        cases r with
        | none => rfl
        | some rc =>
          have : rc.height ≤ fuel := by
            simp only [ONode.height_some] at hf
            omega
          exact ihr rc rfl fuel this

theorem insertFuel_succ_eq (c : K → K → Ordering) (key k : K) (val v : V)
    (pr p fuel : Nat) (l r : ONode K V) (h : c key k = Ordering.eq) :
    Node.insertFuel c key val pr (fuel + 1) (mk k v l r p) =
      some (mk k val l r (if p < pr then pr else p), some v) := by
  cases l <;> cases r <;> simp [Node.insertFuel, h]

theorem insertFuel_succ_lt_some (c : K → K → Ordering) (key k : K) (val v : V)
    (pr p fuel : Nat) (lc : Node K V) (r : ONode K V) (h : c key k = Ordering.lt) :
    Node.insertFuel c key val pr (fuel + 1) (mk k v (.some lc) r p) =
      match Node.insertFuel c key val pr fuel lc with
      | Option.none => Option.none
      | Option.some res =>
        some (if p < res.1.priority
          then (mk k v (.some res.1) r p).rotate_right
          else mk k v (.some res.1) r p, res.2) := by
  cases hres : Node.insertFuel c key val pr fuel lc <;> cases r <;>
    simp [Node.insertFuel, h, hres]

theorem insertFuel_succ_lt_none (c : K → K → Ordering) (key k : K) (val v : V)
    (pr p fuel : Nat) (r : ONode K V) (h : c key k = Ordering.lt) :
    Node.insertFuel c key val pr (fuel + 1) (mk k v .none r p) =
      some (if p < pr
        then (mk k v (.some (Node.new key val pr)) r p).rotate_right
        else mk k v (.some (Node.new key val pr)) r p, Option.none) := by
  cases r <;> simp [Node.insertFuel, h, Node.new]

theorem insertFuel_succ_gt_some (c : K → K → Ordering) (key k : K) (val v : V)
    (pr p fuel : Nat) (l : ONode K V) (rc : Node K V) (h : c key k = Ordering.gt) :
    Node.insertFuel c key val pr (fuel + 1) (mk k v l (.some rc) p) =
      match Node.insertFuel c key val pr fuel rc with
      | Option.none => Option.none
      | Option.some res =>
        some (if p < res.1.priority
          then (mk k v l (.some res.1) p).rotate_left
          else mk k v l (.some res.1) p, res.2) := by
  cases hres : Node.insertFuel c key val pr fuel rc <;> cases l <;>
    simp [Node.insertFuel, h, hres]

theorem insertFuel_succ_gt_none (c : K → K → Ordering) (key k : K) (val v : V)
    (pr p fuel : Nat) (l : ONode K V) (h : c key k = Ordering.gt) :
    Node.insertFuel c key val pr (fuel + 1) (mk k v l .none p) =
      some (if p < pr
        then (mk k v l (.some (Node.new key val pr)) p).rotate_left
        else mk k v l (.some (Node.new key val pr)) p, Option.none) := by
  cases l <;> simp [Node.insertFuel, h, Node.new]

/-- `insert` needs recursion depth at most the tree height: with any fuel
budget of at least `height`, the fuel-indexed insertion finishes and computes
`insert`. -/
theorem insertFuel_spec (c : K → K → Ordering) (key : K) (val : V) (pr : Nat) :
    ∀ (n : Node K V) (fuel : Nat), n.height ≤ fuel →
      Node.insertFuel c key val pr fuel n = some (n.insert c key val pr) := by
  intro n
  induction n using Node.ind with
  | h k v l r p ihl ihr =>
    intro fuel hf
    cases fuel with
    | zero => simp at hf
    | succ fuel =>
      simp only [height_mk] at hf
      cases hc : c key k with
      | eq =>
        rw [insertFuel_succ_eq c key k val v pr p fuel l r hc,
          insert_mk_eq c key k val v pr p l r hc]
      | lt =>
        cases l with
        | none =>
          rw [insertFuel_succ_lt_none c key k val v pr p fuel r hc,
            insert_mk_lt_none c key k val v pr p r hc]
        | some lc =>
          have hlc : lc.height ≤ fuel := by
            simp only [ONode.height_some] at hf
            omega
          rw [insertFuel_succ_lt_some c key k val v pr p fuel lc r hc,
            ihl lc rfl fuel hlc,
            insert_mk_lt_some c key k val v pr p lc r hc]
      | gt =>
        cases r with
        | none =>
          rw [insertFuel_succ_gt_none c key k val v pr p fuel l hc,
            insert_mk_gt_none c key k val v pr p l hc]
        | some rc =>
          have hrc : rc.height ≤ fuel := by
            simp only [ONode.height_some] at hf
            omega
          rw [insertFuel_succ_gt_some c key k val v pr p fuel l rc hc,
            ihr rc rfl fuel hrc,
            insert_mk_gt_some c key k val v pr p l rc hc]

end Node

/-! ## Claim theorems -/

/-- C1: For every sequence of `TreapMap.insert` calls (any keys under a
lawful comparator, any values, any priorities drawn), a subsequent
`TreapMap.get` of each inserted key returns the value most recently inserted
for that key (and `none` exactly for keys never inserted). -/
theorem treap_round_trip (c : K → K → Ordering) [Batteries.TransCmp c]
    (ops : List (K × V × Nat)) (q : K) :
    (TreapMap.applyOps c TreapMap.new ops).get c q =
      TreapMap.mostRecent c ops q := by
  rw [TreapMap.get_applyOps c ops TreapMap.new (by simp [TreapMap.new]) q]
  simp [TreapMap.get, TreapMap.new, Option.or_none]

theorem treap_round_trip_witness :
    (TreapMap.applyOps compare TreapMap.new
      [(3, 30, 7), (1, 10, 9), (3, 31, 2), (5, 50, 8)]).get compare 3 =
      some 31 :=
  (treap_round_trip compare [(3, 30, 7), (1, 10, 9), (3, 31, 2), (5, 50, 8)]
    3).trans (by decide)

/-- C2: The BST invariant is preserved by every operation: every map
reachable from `TreapMap.new` by insertions has a BST root (every node's
left subtree holds only keys comparing below the node's key, the right
subtree only keys comparing above), and `rotate_right` / `rotate_left`
preserve this invariant on any BST node. -/
theorem treap_bst_invariant (c : K → K → Ordering) [Batteries.TransCmp c] :
    (∀ ops : List (K × V × Nat),
      ((TreapMap.applyOps c (TreapMap.new : TreapMap K V) ops).root).isBST c
        = true) ∧
    (∀ n : Node K V, n.isBST c = true →
      n.rotate_right.isBST c = true ∧ n.rotate_left.isBST c = true) := by
  constructor
  · intro ops
    exact TreapMap.applyOps_isBST c ops TreapMap.new (by simp [TreapMap.new])
  · intro n h
    exact ⟨Node.isBST_rotate_right c h, Node.isBST_rotate_left c h⟩

theorem treap_bst_invariant_witness :
    ((TreapMap.applyOps compare (TreapMap.new : TreapMap Nat Nat)
      [(3, 30, 7), (1, 10, 9), (5, 50, 8), (2, 20, 11)]).root).isBST compare
        = true ∧
    (Node.mk 2 0 (.some (Node.mk 1 0 .none .none 5))
      (.some (Node.mk 3 0 .none .none 4)) 9 :
        Node Nat Nat).rotate_right.isBST compare = true :=
  ⟨(treap_bst_invariant compare).1 [(3, 30, 7), (1, 10, 9), (5, 50, 8), (2, 20, 11)],
   ((treap_bst_invariant compare).2 _ (by decide)).1⟩

/-- C3: The max-heap invariant on priorities holds after every
`TreapMap.insert` (including re-insertion of an existing key, which may
raise a node's priority): every reachable map has a heap-shaped root, and a
single insert preserves a heap-shaped root, for any comparator. -/
theorem treap_heap_invariant (c : K → K → Ordering) :
    (∀ ops : List (K × V × Nat),
      ((TreapMap.applyOps c (TreapMap.new : TreapMap K V) ops).root).isHeap
        = true) ∧
    (∀ (m : TreapMap K V) (k : K) (v : V) (p : Nat), m.root.isHeap = true →
      (((m.insert c k v p).1).root).isHeap = true) := by
  constructor
  · intro ops
    exact TreapMap.applyOps_isHeap c ops TreapMap.new (by simp [TreapMap.new])
  · intro m k v p h
    exact TreapMap.root_isHeap_insert c m h k v p

theorem treap_heap_invariant_witness :
    ((TreapMap.applyOps compare (TreapMap.new : TreapMap Nat Nat)
      [(3, 30, 7), (1, 10, 9), (3, 31, 12), (5, 50, 8)]).root).isHeap = true ∧
    (((⟨.some (Node.mk 3 30 .none .none 5), 1⟩ : TreapMap Nat Nat).insert
      compare 3 31 9).1.root).isHeap = true :=
  ⟨(treap_heap_invariant compare).1 [(3, 30, 7), (1, 10, 9), (3, 31, 12), (5, 50, 8)],
   (treap_heap_invariant compare).2 _ 3 31 9 (by decide)⟩

/-- C4: Inserting a key already present (its descent reaches a stored entry)
replaces in place: the call returns the previously stored value, the stored
key objects are left unchanged (same in-order key sequence, and the found
entry still carries the originally stored key object), the node count does
not change (nor does the map's `len`), and the entry's priority becomes
`max current incoming` — never lower. -/
theorem treap_replacement_semantics (c : K → K → Ordering)
    [Batteries.TransCmp c] (n : Node K V) (k : K) (v : V) (p : Nat)
    (e : K × V × Nat) (hb : n.isBST c = true) (he : n.entryFor c k = some e) :
    (n.insert c k v p).2 = some e.2.1 ∧
    ((n.insert c k v p).1).size = n.size ∧
    ((n.insert c k v p).1).keysList = n.keysList ∧
    ((n.insert c k v p).1).entryFor c k = some (e.1, v, max e.2.2 p) ∧
    (∀ m : TreapMap K V, m.root = .some n →
      ((m.insert c k v p).1).len = m.len) := by
  have hget : n.get c k = some e.2.1 := by
    rw [Node.get_eq_entryFor, he]
    rfl
  have hsome : (n.get c k).isSome = true := by
    rw [hget]
    rfl
  refine ⟨?_, ?_, ?_, ?_, ?_⟩
  · rw [Node.snd_insert_eq_get, hget]
  · rw [Node.size_insert c k v p n, hsome]
    simp
  · exact Node.keysList_insert c k v p n hsome
  · rw [Node.entryFor_insert c k v p k hb,
      if_pos (Batteries.OrientedCmp.cmp_refl : c k k = Ordering.eq), he]
    dsimp only
    have hmax : (if e.2.2 < p then p else e.2.2) = max e.2.2 p := by
      split <;> omega
    rw [hmax]
  · intro m hm
    rw [TreapMap.len_insert c m k v p, TreapMap.snd_insert c m k v p]
    have hmget : m.get c k = some e.2.1 := by
      rw [TreapMap.get, hm, ONode.get_some, hget]
    rw [hmget]
    simp

theorem treap_replacement_semantics_witness :
    ((⟨.some (Node.mk (1, 100) 30 .none .none 5), 1⟩ :
        TreapMap (Nat × Nat) Nat).insert (compareOn Prod.fst)
      (1, 200) 31 9).1.len = 1 ∧
    ((Node.mk (1, 100) 30 .none .none 5 : Node (Nat × Nat) Nat).insert
      (compareOn Prod.fst) (1, 200) 31 9).2 = some 30 ∧
    ((Node.mk (1, 100) 30 .none .none 5 : Node (Nat × Nat) Nat).insert
      (compareOn Prod.fst) (1, 200) 31 9).1.keysList = [(1, 100)] ∧
    ((Node.mk (1, 100) 30 .none .none 5 : Node (Nat × Nat) Nat).insert
      (compareOn Prod.fst) (1, 200) 31 9).1.entryFor (compareOn Prod.fst)
      (1, 200) = some ((1, 100), 31, max 5 9) :=
  have h := treap_replacement_semantics (compareOn Prod.fst)
    (Node.mk (1, 100) 30 .none .none 5) (1, 200) 31 9 ((1, 100), 30, 5)
    (by decide) (by decide)
  ⟨h.2.2.2.2 ⟨.some (Node.mk (1, 100) 30 .none .none 5), 1⟩ rfl,
   h.1, h.2.2.1, h.2.2.2.1⟩

/-- C5: After any insertion sequence from `TreapMap.new`, the map's `len`
equals the number of nodes in the tree and the number of distinct keys
inserted; and on each insert, `len` grows by one exactly when the returned
previous value is absent. -/
theorem treap_len_invariant (c : K → K → Ordering) [Batteries.TransCmp c] :
    (∀ ops : List (K × V × Nat),
      (TreapMap.applyOps c (TreapMap.new : TreapMap K V) ops).len =
        ((TreapMap.applyOps c TreapMap.new ops).root).size ∧
      (TreapMap.applyOps c (TreapMap.new : TreapMap K V) ops).len =
        TreapMap.distinctKeys c ops) ∧
    (∀ (m : TreapMap K V) (k : K) (v : V) (p : Nat),
      ((m.insert c k v p).1).len =
        m.len + if (m.insert c k v p).2.isNone then 1 else 0) := by
  constructor
  · intro ops
    exact ⟨TreapMap.applyOps_len_size c ops TreapMap.new (by simp [TreapMap.new]),
      TreapMap.len_applyOps_distinct c ops⟩
  · intro m k v p
    exact TreapMap.len_insert c m k v p

theorem treap_len_invariant_witness :
    (TreapMap.applyOps compare (TreapMap.new : TreapMap Nat Nat)
      [(3, 30, 7), (1, 10, 9), (3, 31, 2)]).len =
      ((TreapMap.applyOps compare TreapMap.new
        [(3, 30, 7), (1, 10, 9), (3, 31, 2)]).root).size ∧
    (TreapMap.applyOps compare (TreapMap.new : TreapMap Nat Nat)
      [(3, 30, 7), (1, 10, 9), (3, 31, 2)]).len =
      TreapMap.distinctKeys compare [(3, 30, 7), (1, 10, 9), (3, 31, 2)] ∧
    ((⟨.some (Node.mk 3 30 .none .none 5), 1⟩ : TreapMap Nat Nat).insert
      compare 1 10 4).1.len =
      1 + if ((⟨.some (Node.mk 3 30 .none .none 5), 1⟩ :
        TreapMap Nat Nat).insert compare 1 10 4).2.isNone then 1 else 0 :=
  ⟨((treap_len_invariant compare).1 [(3, 30, 7), (1, 10, 9), (3, 31, 2)]).1,
   ((treap_len_invariant compare).1 [(3, 30, 7), (1, 10, 9), (3, 31, 2)]).2,
   (treap_len_invariant compare).2 ⟨.some (Node.mk 3 30 .none .none 5), 1⟩ 1 10 4⟩

/-- C6: `rotate_right` on a node `y` with left child `x` (children `a`, `b`)
and right child `c` produces, in place, `x` with left child `a` and right
child `y`, where `y` now has children `b` and `c`; `rotate_left` is the
exact mirror; and when the required child is absent each rotation leaves the
node unchanged. -/
theorem treap_rotation_spec :
    ∀ (k xk : K) (v xv : V) (a b r l c2 : ONode K V) (p xp : Nat),
      (Node.mk k v (.some (Node.mk xk xv a b xp)) r p).rotate_right =
        Node.mk xk xv a (.some (Node.mk k v b r p)) xp ∧
      (Node.mk k v l (.some (Node.mk xk xv b c2 xp)) p).rotate_left =
        Node.mk xk xv (.some (Node.mk k v l b p)) c2 xp ∧
      (Node.mk k v .none r p).rotate_right = Node.mk k v .none r p ∧
      (Node.mk k v l .none p).rotate_left = Node.mk k v l .none p := by
  intro k xk v xv a b r l c2 p xp
  exact ⟨rfl, rfl, rfl, rfl⟩

/-- C7: `TreapMap.insert` returns exactly what `TreapMap.get` of the key
returned just before the call: the previous value when the key was present,
and the absent option when it was not — a normal optional outcome of a total
function, never a failure. -/
theorem treap_insert_returns_previous (c : K → K → Ordering) :
    ∀ (m : TreapMap K V) (k : K) (v : V) (p : Nat),
      (m.insert c k v p).2 = m.get c k :=
  fun m k v p => TreapMap.snd_insert c m k v p

/-- C8: `Node.get` and `Node.insert` are total functions whose recursion
descends one level per call: with any fuel budget of at least the tree
height, the fuel-indexed variants finish and compute the same results
(`Node.get` is pure — it returns only an optional value and no tree). -/
theorem treap_operations_depth_bounded (c : K → K → Ordering) :
    (∀ (n : Node K V) (q : K) (fuel : Nat), n.height ≤ fuel →
      Node.getFuel c q fuel n = some (n.get c q)) ∧
    (∀ (n : Node K V) (key : K) (val : V) (pr fuel : Nat), n.height ≤ fuel →
      Node.insertFuel c key val pr fuel n = some (n.insert c key val pr)) :=
  ⟨fun n q fuel h => Node.getFuel_spec c q n fuel h,
   fun n key val pr fuel h => Node.insertFuel_spec c key val pr n fuel h⟩

theorem treap_operations_depth_bounded_witness :
    Node.getFuel compare 1 2
      (Node.mk 3 30 (.some (Node.mk 1 10 .none .none 4)) .none 9 :
        Node Nat Nat) =
      some ((Node.mk 3 30 (.some (Node.mk 1 10 .none .none 4)) .none 9 :
        Node Nat Nat).get compare 1) ∧
    Node.insertFuel compare 2 20 6 2
      (Node.mk 3 30 (.some (Node.mk 1 10 .none .none 4)) .none 9 :
        Node Nat Nat) =
      some ((Node.mk 3 30 (.some (Node.mk 1 10 .none .none 4)) .none 9 :
        Node Nat Nat).insert compare 2 20 6) :=
  ⟨(treap_operations_depth_bounded compare).1 _ 1 2 (by decide),
   (treap_operations_depth_bounded compare).2 _ 2 20 6 2 (by decide)⟩

/-- C9: During `Node.insert`, the heap-violation test is exactly a strict
priority comparison with the (present) child, and a rotation fires at a node
only when the updated child's priority strictly exceeds the node's own
priority: when it is less than or equal — in particular equal — no rotation
occurs and the node keeps its key, value, priority and other child at that
level. -/
theorem treap_rotation_trigger (c : K → K → Ordering) (key k : K) (val v : V)
    (pr p : Nat) (lc rc : Node K V) (l r : ONode K V) :
    (∀ ch : Node K V, (Node.mk k v l r p).is_heap_property_violated (.some ch)
      = decide (p < ch.priority)) ∧
    ((Node.mk k v l r p).is_heap_property_violated .none = false) ∧
    (c key k = Ordering.lt →
      (((lc.insert c key val pr).1).priority ≤ p →
        (Node.mk k v (.some lc) r p).insert c key val pr =
          (Node.mk k v (.some ((lc.insert c key val pr).1)) r p,
           (lc.insert c key val pr).2)) ∧
      (p < ((lc.insert c key val pr).1).priority →
        (Node.mk k v (.some lc) r p).insert c key val pr =
          ((Node.mk k v (.some ((lc.insert c key val pr).1)) r p).rotate_right,
           (lc.insert c key val pr).2))) ∧
    (c key k = Ordering.gt →
      (((rc.insert c key val pr).1).priority ≤ p →
        (Node.mk k v l (.some rc) p).insert c key val pr =
          (Node.mk k v l (.some ((rc.insert c key val pr).1)) p,
           (rc.insert c key val pr).2)) ∧
      (p < ((rc.insert c key val pr).1).priority →
        (Node.mk k v l (.some rc) p).insert c key val pr =
          ((Node.mk k v l (.some ((rc.insert c key val pr).1)) p).rotate_left,
           (rc.insert c key val pr).2))) := by
  refine ⟨fun ch => rfl, rfl, fun hc => ⟨fun hle => ?_, fun hlt => ?_⟩,
    fun hc => ⟨fun hle => ?_, fun hlt => ?_⟩⟩
  · rw [Node.insert_mk_lt_some c key k val v pr p lc r hc,
      if_neg (not_lt.mpr hle)]
  · rw [Node.insert_mk_lt_some c key k val v pr p lc r hc, if_pos hlt]
  · rw [Node.insert_mk_gt_some c key k val v pr p l rc hc,
      if_neg (not_lt.mpr hle)]
  · rw [Node.insert_mk_gt_some c key k val v pr p l rc hc, if_pos hlt]

theorem treap_rotation_trigger_witness :
    ((Node.mk 3 30 (.some (Node.mk 1 10 .none .none 5)) .none 5 :
        Node Nat Nat).insert compare 0 0 5 =
      (Node.mk 3 30
        (.some (((Node.mk 1 10 .none .none 5 : Node Nat Nat).insert
          compare 0 0 5).1)) .none 5,
       ((Node.mk 1 10 .none .none 5 : Node Nat Nat).insert compare 0 0 5).2)) ∧
    ((Node.mk 3 30 (.some (Node.mk 1 10 .none .none 5)) .none 5 :
        Node Nat Nat).insert compare 0 0 9 =
      ((Node.mk 3 30
        (.some (((Node.mk 1 10 .none .none 5 : Node Nat Nat).insert
          compare 0 0 9).1)) .none 5).rotate_right,
       ((Node.mk 1 10 .none .none 5 : Node Nat Nat).insert compare 0 0 9).2)) :=
  ⟨((treap_rotation_trigger compare 0 3 0 30 5 5 (Node.mk 1 10 .none .none 5)
      (Node.mk 1 10 .none .none 5) .none .none).2.2.1 (by decide)).1
    (by decide),
   ((treap_rotation_trigger compare 0 3 0 30 9 5 (Node.mk 1 10 .none .none 5)
      (Node.mk 1 10 .none .none 5) .none .none).2.2.1 (by decide)).2
    (by decide)⟩

/-- C10: `TreapMap::default()` returns the same empty map as
`TreapMap::new()`: absent root and `len` zero, so a lookup of any key on it
returns the absent option. -/
theorem treap_default_spec :
    (TreapMap.default : TreapMap K V) = TreapMap.new ∧
    (TreapMap.default : TreapMap K V).root = ONode.none ∧
    (TreapMap.default : TreapMap K V).len = 0 ∧
    ∀ (c : K → K → Ordering) (q : K),
      (TreapMap.default : TreapMap K V).get c q = Option.none :=
  ⟨rfl, rfl, rfl, fun _ _ => rfl⟩
